import Mathlib

/-!
# Afina `SimpleLRU` storage backend

A shallow embedding of `src/storage/SimpleLRU.cpp`: a byte-budgeted key/value
store with least-recently-used eviction.  The recency sequence is a doubly
linked list of heap nodes (`prev` / `next` pointers), `_lru_head` is the
least recently used node, `_lru_tail` the most recently used one, and
`_lru_index` maps a key to the node carrying it.

Pointers are addresses into an explicit heap.  Dereferencing a null pointer or
a reference to a destroyed node is undefined behaviour in the source; the
embedding reports it as a `Fault` instead of inventing a result.
-/

namespace Afina.Backend

/-- A `std::string`, as its sequence of bytes. -/
abbrev Str := List Char

/-- Modulus of `size_t` arithmetic. -/
def SIZE_MOD : Nat := 2 ^ 64

/-- The value `std::string::size()` returns, a `size_t`. -/
def size (x : Str) : Nat := x.length % SIZE_MOD

/-- Addition of two `size_t` values. -/
def uadd (a b : Nat) : Nat := (a + b) % SIZE_MOD

/-- Subtraction of two `size_t` values (wraps around below zero). -/
def usub (a b : Nat) : Nat := (a + SIZE_MOD - b % SIZE_MOD) % SIZE_MOD

/-- A node of the recency list (`struct lru_node`); `prev` and `next` are
`std::shared_ptr<lru_node>`, with `none` for the null pointer. -/
structure lru_node where
  key : Str
  value : Str
  prev : Option Nat
  next : Option Nat
deriving DecidableEq, Repr

/-- The heap: address `a` holds `some n` while the node is alive, `none` once
it has been destroyed; addresses past the end were never allocated. -/
abbrev Heap := List (Option lru_node)

/-- The state of a `SimpleLRU` object together with the heap its nodes live in.
`_lru_index` is the `std::map` from key to node reference; an entry's key is a
reference to the key stored in the node, which is never mutated while the
node is indexed, so the entry is kept as the pair (key, node address). -/
structure SimpleLRU where
  _max_size : Nat
  _cur_size : Nat
  _lru_head : Option Nat
  _lru_tail : Option Nat
  _lru_index : List (Str × Nat)
  heap : Heap
deriving DecidableEq, Repr

/-- Undefined behaviour the source can run into, and the exhaustion of the
iteration bound of the eviction loop. -/
inductive Fault where
  | nullDeref
  | danglingRef
  | badIterator
  | fuel
deriving DecidableEq, Repr

/-- Read the node at an address. -/
def rd (h : Heap) (a : Nat) : Option lru_node := (h[a]?).join

/-- Overwrite the node at an address. -/
def wr (h : Heap) (a : Nat) (n : lru_node) : Heap := h.set a (some n)

/-- Destroy the node at an address. -/
def release (h : Heap) (a : Nat) : Heap := h.set a none

/-- The result of `std::make_shared<lru_node>(lru_node())`: a fresh address holding a
default-constructed node. -/
def alloc (h : Heap) : Heap × Nat :=
  (h ++ [some { key := [], value := [], prev := none, next := none }], h.length)

/-- The address a non-null pointer holds. -/
def ptr (p : Option Nat) : Except Fault Nat :=
  match p with
  | none => .error .nullDeref
  | some a => .ok a

/-- Dereference a reference to a node. -/
def load (h : Heap) (a : Nat) : Except Fault lru_node :=
  match rd h a with
  | none => .error .danglingRef
  | some n => .ok n

/-- The assignment `a->next = v`. -/
def storeNext (h : Heap) (a : Nat) (v : Option Nat) : Except Fault Heap :=
  match rd h a with
  | none => .error .danglingRef
  | some n => .ok (wr h a { n with next := v })

/-- The assignment `a->prev = v`. -/
def storePrev (h : Heap) (a : Nat) (v : Option Nat) : Except Fault Heap :=
  match rd h a with
  | none => .error .danglingRef
  | some n => .ok (wr h a { n with prev := v })

namespace SimpleLRU

/-- Modelled from the spec: the constructor lives in `SimpleLRU.h`, which is not
part of the sources; a freshly constructed store is empty and its free budget
`_cur_size` equals `_max_size`. -/
def init (max_size : Nat) : SimpleLRU :=
  { _max_size := max_size, _cur_size := max_size, _lru_head := none,
    _lru_tail := none, _lru_index := [], heap := [] }

/-- `SimpleLRU::GetNode`: the node the index holds for `key`, if any
(`success` is `isSome`). -/
def GetNode (key : Str) (s : SimpleLRU) : Option Nat :=
  s._lru_index.lookup key

/-- `SimpleLRU::Delete`.  The node is owned by exactly the two pointers that are
overwritten here (its predecessor's `next` or `_lru_head`, its successor's
`prev` or `_lru_tail`), so it is destroyed when the call returns. -/
def Delete (key : Str) (s : SimpleLRU) : Except Fault (Bool × SimpleLRU) :=
  match GetNode key s with
  | none => pure (false, s)
  | some a => do
    let node ← load s.heap a
    let cur := uadd s._cur_size (uadd (size node.key) (size node.value))
    let prev := node.prev
    let next := node.next
    if (s._lru_index.lookup node.key).isNone then throw Fault.badIterator
    let index := s._lru_index.filter (fun e => e.1 != node.key)
    let (h1, head) ← match prev with
      | some p => do
        let h ← storeNext s.heap p next
        pure (h, s._lru_head)
      | none => pure (s.heap, next)
    let (h2, tail) ← match next with
      | some q => do
        let h ← storePrev h1 q prev
        pure (h, s._lru_tail)
      | none => pure (h1, prev)
    pure (true, { s with _cur_size := cur, _lru_head := head, _lru_tail := tail,
                         _lru_index := index, heap := release h2 a })

/-- The `while` loop of `SimpleLRU::RemoveOldNodes`, with an iteration bound. -/
def RemoveOldLoop (size : Nat) : Nat → SimpleLRU → Except Fault (Bool × SimpleLRU)
  | 0, s =>
    if s._lru_tail.isSome ∧ s._cur_size < size then throw Fault.fuel else pure (true, s)
  | fuel + 1, s =>
    if s._lru_tail.isSome ∧ s._cur_size < size then do
      let h ← ptr s._lru_head
      let head ← load s.heap h
      let (ok, s1) ← Delete head.key s
      if !ok then pure (false, s1) else RemoveOldLoop size fuel s1
    else pure (true, s)

/-- `SimpleLRU::RemoveOldNodes`.  Every completed iteration erases one index
entry, so one more iteration than there are entries is always enough. -/
def RemoveOldNodes (size : Nat) (s : SimpleLRU) : Except Fault (Bool × SimpleLRU) :=
  if size > s._max_size then pure (false, s)
  else RemoveOldLoop size (s._lru_index.length + 1) s

/-- `SimpleLRU::FillNode`. -/
def FillNode (node : Option Nat) (key value : Str) (prev next : Option Nat)
    (s : SimpleLRU) : Except Fault SimpleLRU := do
  let a ← ptr node
  let _ ← load s.heap a
  let h0 := wr s.heap a { key := key, value := value, prev := prev, next := next }
  let h1 ← match prev with
    | some p => storeNext h0 p node
    | none => pure h0
  let h2 ← match next with
    | some q => storePrev h1 q node
    | none => pure h1
  let index := if (s._lru_index.lookup key).isSome then s._lru_index
               else (key, a) :: s._lru_index
  pure { s with heap := h2, _lru_index := index }

/-- `SimpleLRU::PutAnyway`. -/
def PutAnyway (key value : Str) (s : SimpleLRU) : Except Fault (Bool × SimpleLRU) := do
  let (ok, s1) ← RemoveOldNodes (uadd (size key) (size value)) s
  if !ok then pure (false, s1) else
  let s3 ← match s1._lru_tail with
    | some t => do
      let (h, a) := alloc s1.heap
      let h1 ← storeNext h t (some a)
      let tn ← load h1 t
      let s2 ← FillNode tn.next key value s1._lru_tail none { s1 with heap := h1 }
      let tn2 ← load s2.heap t
      pure { s2 with _lru_tail := tn2.next }
    | none => do
      let (h, a) := alloc s1.heap
      FillNode (some a) key value none none
        { s1 with _lru_head := some a, _lru_tail := some a, heap := h }
  pure (true, { s3 with _cur_size := usub s3._cur_size (uadd (size key) (size value)) })

/-- `SimpleLRU::RearrangeToTail`. -/
def RearrangeToTail (a : Nat) (s : SimpleLRU) : Except Fault SimpleLRU := do
  let node ← load s.heap a
  match node.next with
  | none => pure s
  | some q =>
    let temp_lru_tail := s._lru_tail
    let prev := node.prev
    let nextNode ← load s.heap q
    let t ← ptr s._lru_tail
    let h1 ← storeNext s.heap t nextNode.prev
    let tailNode ← load h1 t
    let tail1 := tailNode.next
    let (h2, head) ← match prev with
      | some p => do
        let h ← storeNext h1 p (some q)
        pure (h, s._lru_head)
      | none => pure (h1, some q)
    let h3 ← storePrev h2 q prev
    let t1 ← ptr tail1
    let h4 ← storePrev h3 t1 temp_lru_tail
    let h5 ← storeNext h4 t1 none
    pure { s with _lru_head := head, _lru_tail := tail1, heap := h5 }

/-- `SimpleLRU::Set`. -/
def Set (key value : Str) (s : SimpleLRU) : Except Fault (Bool × SimpleLRU) :=
  match GetNode key s with
  | none => pure (false, s)
  | some a => do
    let node ← load s.heap a
    let (ok, s1) ← RemoveOldNodes (usub (size value) (size node.value)) s
    if !ok then pure (false, s1) else
    let node1 ← load s1.heap a
    let cur := uadd s1._cur_size (usub (size value) (size node1.value))
    let h := wr s1.heap a { node1 with value := value }
    let s3 ← RearrangeToTail a { s1 with _cur_size := cur, heap := h }
    pure (true, s3)

/-- `SimpleLRU::Put`. -/
def Put (key value : Str) (s : SimpleLRU) : Except Fault (Bool × SimpleLRU) :=
  match GetNode key s with
  | some _ => do
    let (ok, s1) ← Set key value s
    if !ok then pure (false, s1) else pure (true, s1)
  | none => do
    let (ok, s1) ← PutAnyway key value s
    if !ok then pure (false, s1) else pure (true, s1)

/-- `SimpleLRU::PutIfAbsent`. -/
def PutIfAbsent (key value : Str) (s : SimpleLRU) : Except Fault (Bool × SimpleLRU) :=
  match GetNode key s with
  | some _ => pure (false, s)
  | none => do
    let (ok, s1) ← PutAnyway key value s
    if !ok then pure (false, s1) else pure (true, s1)

/-- `SimpleLRU::Get`; `value` is the caller's output string, returned as the
second component. -/
def Get (key : Str) (value : Str) (s : SimpleLRU) : Except Fault (Bool × Str × SimpleLRU) :=
  match GetNode key s with
  | none => pure (false, value, s)
  | some a => do
    let node ← load s.heap a
    let s1 ← RearrangeToTail a s
    pure (true, node.value, s1)


end SimpleLRU

open SimpleLRU

/-! ## The abstract view of a store -/

/-- One element of the recency sequence: the address of the node, its key and
its value. -/
abbrev Cell := Nat × Str × Str

/-- The address of the first cell, or `q` when there is none. -/
def firstOr (L : List Cell) (q : Option Nat) : Option Nat :=
  match L with
  | [] => q
  | x :: _ => some x.1

/-- The address of the last cell, or `p` when there is none. -/
def lastOr (p : Option Nat) : List Cell → Option Nat
  | [] => p
  | x :: L => lastOr (some x.1) L

/-- The heap holds the cells of `L` as a doubly linked segment: each node carries
the key and value of its cell, its `prev` is the preceding cell (`p` for the
first one) and its `next` the following cell (`q` for the last one). -/
def Seg (h : Heap) : Option Nat → List Cell → Option Nat → Prop
  | _, [], _ => True
  | p, x :: L, q =>
    rd h x.1 = some { key := x.2.1, value := x.2.2, prev := p, next := firstOr L q }
      ∧ Seg h (some x.1) L q

instance Seg.decide (h : Heap) : (p : Option Nat) → (L : List Cell) → (q : Option Nat) →
    Decidable (Seg h p L q)
  | _, [], _ => isTrue trivial
  | _, x :: L, q =>
    have := Seg.decide h (some x.1) L q
    inferInstanceAs (Decidable (_ ∧ _))

/-- Follow `next` from a pointer, for at most the given number of nodes. -/
def walk (h : Heap) : Nat → Option Nat → List Cell
  | 0, _ => []
  | _ + 1, none => []
  | f + 1, some a =>
    match rd h a with
    | none => []
    | some n => (a, n.key, n.value) :: walk h f n.next

/-- The recency sequence, from `_lru_head` (least recently used) along `next`. -/
def cells (s : SimpleLRU) : List Cell := walk s.heap s.heap.length s._lru_head

/-- The entries of the store in recency order: (key, value), least recently
used first. -/
def entries (s : SimpleLRU) : List (Str × Str) := (cells s).map Prod.snd

/-- The `size_cost` of an entry: `len(key) + len(value)`. -/
def cost (e : Str × Str) : Nat := e.1.length + e.2.length

/-- The sum of the `size_cost` of a list of entries. -/
def total (es : List (Str × Str)) : Nat := (es.map cost).sum

/-- The store is represented by the cell list `L`: the nodes form a doubly
linked list without repetition from `_lru_head` to `_lru_tail`, and the index
holds exactly one entry per node, under the node's key. -/
def Rep (s : SimpleLRU) (L : List Cell) : Prop :=
  (L.map Prod.fst).Nodup ∧
  Seg s.heap none L none ∧
  s._lru_head = firstOr L none ∧
  s._lru_tail = lastOr none L ∧
  (∀ e ∈ s._lru_index, (e.2, e.1) ∈ L.map (fun x => (x.1, x.2.1))) ∧
  (∀ x ∈ L, s._lru_index.lookup x.2.1 = some x.1) ∧
  (s._lru_index.map Prod.fst).Nodup

instance Rep.decide (s : SimpleLRU) (L : List Cell) : Decidable (Rep s L) :=
  inferInstanceAs (Decidable (_ ∧ _))

/-- Structural well-formedness of a store (invariants 1, 2 and 4 of the data
model): the two views are in lock-step and the recency sequence is a proper
doubly linked list. -/
def WF (s : SimpleLRU) : Prop := Rep s (cells s)

instance WF.decide (s : SimpleLRU) : Decidable (WF s) :=
  inferInstanceAs (Decidable (Rep _ _))

/-- Exact bookkeeping of the free budget (invariant 3 of the data model):
`_cur_size` is what is left of `_max_size` once every present entry is paid for. -/
def Budget (s : SimpleLRU) : Prop :=
  s._max_size < SIZE_MOD ∧ s._cur_size + total (entries s) = s._max_size

instance Budget.decide (s : SimpleLRU) : Decidable (Budget s) :=
  inferInstanceAs (Decidable (_ ∧ _))

/-- The stores that a sequence of public calls can produce from a freshly
constructed store. -/
inductive Reachable : SimpleLRU → Prop
  | init (max_size : Nat) (h : max_size < SIZE_MOD) : Reachable (SimpleLRU.init max_size)
  | Put {s s1 : SimpleLRU} (k v : Str) (b : Bool) :
      Reachable s → s.Put k v = .ok (b, s1) → Reachable s1
  | PutIfAbsent {s s1 : SimpleLRU} (k v : Str) (b : Bool) :
      Reachable s → s.PutIfAbsent k v = .ok (b, s1) → Reachable s1
  | Set {s s1 : SimpleLRU} (k v : Str) (b : Bool) :
      Reachable s → s.Set k v = .ok (b, s1) → Reachable s1
  | Get {s s1 : SimpleLRU} (k out out1 : Str) (b : Bool) :
      Reachable s → s.Get k out = .ok (b, out1, s1) → Reachable s1
  | Delete {s s1 : SimpleLRU} (k : Str) (b : Bool) :
      Reachable s → s.Delete k = .ok (b, s1) → Reachable s1

/-- The free budget after the given entries have been evicted, as the code
computes it: `_cur_size += key.size() + value.size()` for each of them. -/
def freed (cur : Nat) (es : List (Str × Str)) : Nat :=
  es.foldl (fun c e => uadd c (uadd (size e.1) (size e.2))) cur

/-! ## Example stores -/

/-- Scenario A before the third insert: capacity 10 holding `a -> 1`, then
`bb -> 22`. -/
def scenarioA : SimpleLRU :=
  { _max_size := 10, _cur_size := 4, _lru_head := some 0, _lru_tail := some 1,
    _lru_index := [(['b', 'b'], 1), (['a'], 0)],
    heap := [some { key := ['a'], value := ['1'], prev := none, next := some 1 },
             some { key := ['b', 'b'], value := ['2', '2'], prev := some 0, next := none }] }

/-- Scenario E before the lookup: capacity 4 holding `a -> b`, then `c -> d`. -/
def scenarioE : SimpleLRU :=
  { _max_size := 4, _cur_size := 0, _lru_head := some 0, _lru_tail := some 1,
    _lru_index := [(['c'], 1), (['a'], 0)],
    heap := [some { key := ['a'], value := ['b'], prev := none, next := some 1 },
             some { key := ['c'], value := ['d'], prev := some 0, next := none }] }

/-- Scenario D after the insert: capacity 10 holding `k -> v`. -/
def scenarioD : SimpleLRU :=
  { _max_size := 10, _cur_size := 8, _lru_head := some 0, _lru_tail := some 0,
    _lru_index := [(['k'], 0)],
    heap := [some { key := ['k'], value := ['v'], prev := none, next := none }] }

/-! ## Heap lemmas -/

theorem rd_lt {h : Heap} {a : Nat} {n : lru_node} (e : rd h a = some n) : a < h.length := by
  unfold rd at e
  by_contra hc
  rw [List.getElem?_eq_none (by omega)] at e
  simp at e

theorem rd_wr (h : Heap) (a b : Nat) (n : lru_node) :
    rd (wr h a n) b = if a = b then (if a < h.length then some n else none) else rd h b := by
  unfold rd wr
  rw [List.getElem?_set]
  split <;> [split <;> simp; rfl]

theorem rd_wr_same {h : Heap} {a : Nat} {m : lru_node} (n : lru_node) (e : rd h a = some m) :
    rd (wr h a n) a = some n := by
  rw [rd_wr]; simp [rd_lt e]

theorem rd_wr_ne {h : Heap} {a b : Nat} (n : lru_node) (e : a ≠ b) :
    rd (wr h a n) b = rd h b := by
  rw [rd_wr]; simp [e]

theorem rd_release (h : Heap) (a b : Nat) :
    rd (release h a) b = if a = b then none else rd h b := by
  unfold rd release
  rw [List.getElem?_set]
  split <;> [split <;> simp; rfl]

/-! ## Linked segments -/

@[simp] theorem firstOr_nil (q : Option Nat) : firstOr [] q = q := rfl
@[simp] theorem firstOr_cons (x : Cell) (L : List Cell) (q : Option Nat) :
    firstOr (x :: L) q = some x.1 := rfl
@[simp] theorem lastOr_nil (p : Option Nat) : lastOr p [] = p := rfl
@[simp] theorem lastOr_cons (p : Option Nat) (x : Cell) (L : List Cell) :
    lastOr p (x :: L) = lastOr (some x.1) L := rfl

theorem firstOr_append (L1 L2 : List Cell) (q : Option Nat) :
    firstOr (L1 ++ L2) q = firstOr L1 (firstOr L2 q) := by
  cases L1 <;> rfl

theorem lastOr_append (p : Option Nat) (L1 L2 : List Cell) :
    lastOr p (L1 ++ L2) = lastOr (lastOr p L1) L2 := by
  induction L1 generalizing p with
  | nil => rfl
  | cons x L1 ih => simp [ih]

@[simp] theorem seg_nil (h : Heap) (p q : Option Nat) : Seg h p [] q = True := rfl

theorem seg_cons (h : Heap) (p q : Option Nat) (x : Cell) (L : List Cell) :
    Seg h p (x :: L) q ↔
      rd h x.1 = some { key := x.2.1, value := x.2.2, prev := p, next := firstOr L q }
        ∧ Seg h (some x.1) L q := Iff.rfl

theorem seg_append (h : Heap) (p q : Option Nat) (L1 L2 : List Cell) :
    Seg h p (L1 ++ L2) q ↔ Seg h p L1 (firstOr L2 q) ∧ Seg h (lastOr p L1) L2 q := by
  induction L1 generalizing p with
  | nil => simp
  | cons x L1 ih =>
    simp only [List.cons_append, seg_cons, ih, firstOr_append, lastOr_cons, and_assoc]

theorem seg_congr {h h1 : Heap} {L : List Cell} (p q : Option Nat)
    (e : ∀ x ∈ L, rd h1 x.1 = rd h x.1) : Seg h1 p L q ↔ Seg h p L q := by
  induction L generalizing p with
  | nil => simp
  | cons x L ih =>
    have e1 : ∀ y ∈ L, rd h1 y.1 = rd h y.1 := fun y hy => e y (List.mem_cons_of_mem _ hy)
    simp only [seg_cons, e x (List.mem_cons_self _ _), ih _ e1]

theorem seg_mem {h : Heap} {L : List Cell} {p q : Option Nat} (hs : Seg h p L q)
    {x : Cell} (hx : x ∈ L) :
    ∃ n, rd h x.1 = some n ∧ n.key = x.2.1 ∧ n.value = x.2.2 := by
  induction L generalizing p with
  | nil => cases hx
  | cons y L ih =>
    rcases List.mem_cons.1 hx with rfl | hx
    · exact ⟨_, hs.1, rfl, rfl⟩
    · exact ih hs.2 hx

theorem walk_of_seg {h : Heap} {L : List Cell} {p : Option Nat} (hs : Seg h p L none)
    {fuel : Nat} (hf : L.length ≤ fuel) : walk h fuel (firstOr L none) = L := by
  induction L generalizing p fuel with
  | nil => cases fuel <;> rfl
  | cons x L ih =>
    obtain ⟨f, rfl⟩ : ∃ f, fuel = f + 1 := ⟨fuel - 1, by simp at hf; omega⟩
    have hf1 : L.length ≤ f := by simpa using hf
    simp only [firstOr_cons, walk, hs.1, ih hs.2 hf1]

theorem length_le_of_nodup {l : List Nat} {n : Nat} (hn : l.Nodup) (hb : ∀ a ∈ l, a < n) :
    l.length ≤ n := by
  have hsub : l ⊆ List.range n := fun a ha => List.mem_range.2 (hb a ha)
  simpa using (List.subperm_of_subset hn hsub).length_le

theorem cells_of_rep {s : SimpleLRU} {L : List Cell} (hr : Rep s L) : cells s = L := by
  obtain ⟨hn, hs, hh, -⟩ := hr
  have hb : ∀ a ∈ L.map Prod.fst, a < s.heap.length := by
    intro a ha
    obtain ⟨x, hx, rfl⟩ := List.mem_map.1 ha
    obtain ⟨n, hn, -⟩ := seg_mem hs hx
    exact rd_lt hn
  have hl : L.length ≤ s.heap.length := by simpa using length_le_of_nodup hn hb
  unfold cells
  rw [hh]
  exact walk_of_seg hs hl

theorem wf_of_rep {s : SimpleLRU} {L : List Cell} (hr : Rep s L) : WF s := by
  unfold WF; rw [cells_of_rep hr]; exact hr

theorem entries_of_rep {s : SimpleLRU} {L : List Cell} (hr : Rep s L) :
    entries s = L.map Prod.snd := by
  unfold entries; rw [cells_of_rep hr]

/-! ## Index lemmas -/

theorem lookup_mem {idx : List (Str × Nat)} {k : Str} {a : Nat}
    (e : idx.lookup k = some a) : (k, a) ∈ idx := by
  induction idx with
  | nil => simp at e
  | cons x idx ih =>
    obtain ⟨k1, a1⟩ := x
    rw [List.lookup_cons] at e
    by_cases hk : k = k1
    · subst hk; simp at e; simp [e]
    · have : (k == k1) = false := by simpa using hk
      rw [this] at e
      exact List.mem_cons_of_mem _ (ih e)

theorem lookup_of_mem {idx : List (Str × Nat)} {k : Str} {a : Nat}
    (hn : (idx.map Prod.fst).Nodup) (e : (k, a) ∈ idx) : idx.lookup k = some a := by
  induction idx with
  | nil => cases e
  | cons x idx ih =>
    obtain ⟨k1, a1⟩ := x
    rw [List.map_cons, List.nodup_cons] at hn
    rw [List.lookup_cons]
    rcases List.mem_cons.1 e with e1 | e1
    · cases e1; simp
    · have hk : k ≠ k1 := by
        rintro rfl
        exact hn.1 (List.mem_map.2 ⟨(k, a), e1, rfl⟩)
      have : (k == k1) = false := by simpa using hk
      rw [this]
      exact ih hn.2 e1

theorem lookup_filter (idx : List (Str × Nat)) (k k1 : Str) :
    (idx.filter (fun e => e.1 != k1)).lookup k = if k = k1 then none else idx.lookup k := by
  induction idx with
  | nil => simp
  | cons x idx ih =>
    obtain ⟨k2, a2⟩ := x
    by_cases h2 : k2 = k1
    · subst h2
      simp only [List.filter_cons, bne_self_eq_false, Bool.false_eq_true, if_false, ih,
        List.lookup_cons]
      by_cases hk : k = k2
      · simp [hk]
      · have : (k == k2) = false := by simpa using hk
        simp [hk, this]
    · have hb : (k2 != k1) = true := by simpa using h2
      simp only [List.filter_cons, hb, if_true, List.lookup_cons, ih]
      by_cases hk : k = k2
      · subst hk; simp [h2]
      · have : (k == k2) = false := by simpa using hk
        simp [this]

theorem rep_lookup {s : SimpleLRU} {L : List Cell} (hr : Rep s L) (k : Str) (a : Nat) :
    s.GetNode k = some a ↔ ∃ v, (a, k, v) ∈ L := by
  obtain ⟨-, -, -, -, hsnd, hcmp, -⟩ := hr
  constructor
  · intro e
    have := hsnd _ (lookup_mem e)
    obtain ⟨x, hx, hxe⟩ := List.mem_map.1 this
    obtain ⟨a1, k1, v1⟩ := x
    simp only [Prod.mk.injEq] at hxe
    obtain ⟨rfl, rfl⟩ := hxe
    exact ⟨v1, hx⟩
  · rintro ⟨v, hv⟩
    exact hcmp _ hv

theorem rep_absent {s : SimpleLRU} {L : List Cell} (hr : Rep s L) (k : Str) :
    s.GetNode k = none ↔ ∀ x ∈ L, x.2.1 ≠ k := by
  constructor
  · intro e x hx hk
    obtain ⟨a, k1, v⟩ := x
    simp only at hk
    subst hk
    have := (rep_lookup hr k1 a).2 ⟨v, hx⟩
    rw [e] at this
    cases this
  · intro e
    cases hg : s.GetNode k with
    | none => rfl
    | some a =>
      obtain ⟨v, hv⟩ := (rep_lookup hr k a).1 hg
      exact absurd rfl (e _ hv)

/-! ## Delete -/

theorem load_ok {h : Heap} {a : Nat} {n : lru_node} (e : rd h a = some n) :
    load h a = .ok n := by
  simp [load, e]

theorem storeNext_ok {h : Heap} {a : Nat} {n : lru_node} (e : rd h a = some n)
    (v : Option Nat) : storeNext h a v = .ok (wr h a { n with next := v }) := by
  simp [storeNext, e]

theorem storePrev_ok {h : Heap} {a : Nat} {n : lru_node} (e : rd h a = some n)
    (v : Option Nat) : storePrev h a v = .ok (wr h a { n with prev := v }) := by
  simp [storePrev, e]

@[simp] theorem wr_length (h : Heap) (a : Nat) (n : lru_node) : (wr h a n).length = h.length := by
  simp [wr]

@[simp] theorem release_length (h : Heap) (a : Nat) : (release h a).length = h.length := by
  simp [release]

theorem addr_ne_of_append {A B : List Cell} (hn : ((A ++ B).map Prod.fst).Nodup)
    {x y : Cell} (hx : x ∈ A) (hy : y ∈ B) : x.1 ≠ y.1 := by
  rw [List.map_append, List.nodup_append] at hn
  intro e
  exact hn.2.2 (List.mem_map_of_mem Prod.fst hx) (e ▸ List.mem_map_of_mem Prod.fst hy)

theorem addr_ne_of_cons {x : Cell} {L : List Cell} (hn : ((x :: L).map Prod.fst).Nodup)
    {y : Cell} (hy : y ∈ L) : y.1 ≠ x.1 := by
  rw [List.map_cons, List.nodup_cons] at hn
  intro e
  exact hn.1 (e ▸ List.mem_map_of_mem Prod.fst hy)

theorem nodup_erase_mid {L1 L2 : List Cell} {x : Cell}
    (hn : ((L1 ++ x :: L2).map Prod.fst).Nodup) :
    ((L1 ++ L2).map Prod.fst).Nodup ∧ ∀ y ∈ L1 ++ L2, y.1 ≠ x.1 := by
  have hmid := List.nodup_middle.1
    (by simpa using hn : (L1.map Prod.fst ++ x.1 :: L2.map Prod.fst).Nodup)
  rw [List.nodup_cons] at hmid
  refine ⟨by simpa using hmid.2, ?_⟩
  intro y hy hya
  apply hmid.1
  rw [← List.map_append, ← hya]
  exact List.mem_map_of_mem _ hy

/-- Erasing a key from the index keeps it in step with the remaining cells. -/
theorem index_erase {idx : List (Str × Nat)} {L1 L2 : List Cell} {a : Nat} {k v : Str}
    (hnd : ((L1 ++ (a, k, v) :: L2).map Prod.fst).Nodup)
    (hsnd : ∀ e ∈ idx, (e.2, e.1) ∈ (L1 ++ (a, k, v) :: L2).map (fun x => (x.1, x.2.1)))
    (hcmp : ∀ x ∈ L1 ++ (a, k, v) :: L2, idx.lookup x.2.1 = some x.1)
    (hind : (idx.map Prod.fst).Nodup) :
    (∀ e ∈ idx.filter (fun e => e.1 != k),
        (e.2, e.1) ∈ (L1 ++ L2).map (fun x => (x.1, x.2.1))) ∧
    (∀ x ∈ L1 ++ L2, (idx.filter (fun e => e.1 != k)).lookup x.2.1 = some x.1) ∧
    ((idx.filter (fun e => e.1 != k)).map Prod.fst).Nodup := by
  have hna : ∀ y ∈ L1 ++ L2, y.1 ≠ a := (nodup_erase_mid hnd).2
  refine ⟨?_, ?_, ?_⟩
  · intro e he
    rw [List.mem_filter] at he
    obtain ⟨he1, he2⟩ := he
    have hk : e.1 ≠ k := by simpa using he2
    have := hsnd e he1
    simp only [List.map_append, List.map_cons, List.mem_append, List.mem_cons] at this ⊢
    rcases this with h | h | h
    · exact Or.inl h
    · exact absurd (congrArg Prod.snd h) hk
    · exact Or.inr h
  · intro x hx
    have hx1 : x ∈ L1 ++ (a, k, v) :: L2 := by
      simp only [List.mem_append, List.mem_cons] at hx ⊢
      tauto
    rw [lookup_filter]
    have hk : x.2.1 ≠ k := by
      intro hk
      have h1 := hcmp x hx1
      have h2 := hcmp (a, k, v) (by simp)
      rw [hk] at h1
      simp only at h2
      rw [h1] at h2
      exact hna x hx (by simpa using h2)
    simp [hk, hcmp x hx1]
  · exact hind.sublist ((List.filter_sublist _).map _)

theorem delete_rep {s : SimpleLRU} {L1 L2 : List Cell} {a : Nat} {k v : Str}
    (hr : Rep s (L1 ++ (a, k, v) :: L2)) :
    ∃ s1, s.Delete k = .ok (true, s1) ∧ Rep s1 (L1 ++ L2) ∧
      s1._cur_size = uadd s._cur_size (uadd (size k) (size v)) ∧
      s1._max_size = s._max_size ∧ rd s1.heap a = none ∧
      (∀ b, rd s.heap b = none → rd s1.heap b = none) := by
  have hg : s.GetNode k = some a := (rep_lookup hr k a).2 ⟨v, by simp⟩
  have hg1 : s._lru_index.lookup k = some a := hg
  obtain ⟨hnd, hseg, hhead, htail, hsnd, hcmp, hind⟩ := hr
  obtain ⟨hi1, hi2, hi3⟩ := index_erase hnd hsnd hcmp hind
  obtain ⟨hnd1, hna⟩ := nodup_erase_mid hnd
  simp only at hna
  rw [seg_append, seg_cons] at hseg
  obtain ⟨hs1, hnode, hs2⟩ := hseg
  simp only [firstOr_cons] at hs1 hnode hs2
  rcases List.eq_nil_or_concat L1 with rfl | ⟨L1a, ⟨p, kp, vp⟩, rfl⟩
  · cases L2 with
    | nil =>
      simp only [Delete, hg, load_ok hnode, bind, Except.bind, pure, Except.pure, hg1]
      refine ⟨_, rfl, ⟨by simp, by simp, rfl, rfl, hi1, hi2, hi3⟩, rfl, rfl, ?_, ?_⟩
      · simp [rd_release]
      · intro b hb; simp [rd_release, hb]
    | cons z L2a =>
      obtain ⟨z, kz, vz⟩ := z
      have hz := hs2.1
      simp only at hz
      simp only [Delete, hg, load_ok hnode, bind, Except.bind, pure, Except.pure, hg1,
        lastOr_nil, firstOr_cons, storePrev_ok hz]
      have hza : z ≠ a := hna (z, kz, vz) (by simp)
      refine ⟨_, rfl, ⟨hnd1, ?_, rfl, ?_, hi1, hi2, hi3⟩, rfl, rfl, ?_, ?_⟩
      · simp only [List.nil_append, seg_cons]
        refine ⟨?_, ?_⟩
        · simp [rd_release, hza.symm, rd_wr_same _ hz]
        · refine (seg_congr _ _ ?_).2 hs2.2
          intro y hy
          have hya : y.1 ≠ a := hna y (by simp [hy])
          have hyz : y.1 ≠ z := addr_ne_of_cons hnd1 hy
          simp [rd_release, hya.symm, rd_wr, hyz.symm]
      · simp [htail]
      · simp [rd_release]
      · intro b hb
        have : b ≠ z := by rintro rfl; rw [hz] at hb; cases hb
        simp [rd_release, rd_wr, this.symm, hb]
  · simp only [List.concat_eq_append] at *
    have hp : rd s.heap p = some { key := kp, value := vp, prev := lastOr none L1a, next := some a } := by
      rw [seg_append, seg_cons] at hs1
      simpa using hs1.2.1
    have hs1a : Seg s.heap none L1a (some p) := by
      rw [seg_append] at hs1
      simpa using hs1.1
    have hlast : lastOr none (L1a ++ [(p, kp, vp)]) = some p := by simp [lastOr_append]
    have hpa : p ≠ a := hna (p, kp, vp) (by simp)
    have hframe1 : ∀ y ∈ L1a, y.1 ≠ p := by
      intro y hy
      rw [List.append_assoc] at hnd1
      exact addr_ne_of_append hnd1 hy (y := (p, kp, vp)) (by simp)
    cases L2 with
    | nil =>
      simp only [Delete, hg, load_ok hnode, bind, Except.bind, pure, Except.pure, hg1,
        hlast, firstOr_nil, storeNext_ok hp]
      refine ⟨_, rfl, ⟨hnd1, ?_, ?_, ?_, hi1, hi2, hi3⟩, rfl, rfl, ?_, ?_⟩
      · simp only [List.append_nil, seg_append, seg_cons, firstOr_cons, firstOr_nil, seg_nil,
          and_true]
        refine ⟨?_, ?_⟩
        · refine (seg_congr _ _ ?_).2 hs1a
          intro y hy
          have hya : y.1 ≠ a := hna y (by simp [hy])
          simp [rd_release, hya.symm, rd_wr, (hframe1 y hy).symm]
        · simp [rd_release, hpa.symm, rd_wr_same _ hp]
      · simp [hhead, firstOr_append]
      · simp [lastOr_append]
      · simp [rd_release]
      · intro b hb
        have : b ≠ p := by rintro rfl; rw [hp] at hb; cases hb
        simp [rd_release, rd_wr, this.symm, hb]
    | cons z L2a =>
      obtain ⟨z, kz, vz⟩ := z
      have hz := hs2.1
      simp only at hz
      have hza : z ≠ a := hna (z, kz, vz) (by simp)
      have hpz : p ≠ z := addr_ne_of_append hnd1 (x := (p, kp, vp)) (y := (z, kz, vz))
        (by simp) (by simp)
      have hz1 : rd (wr s.heap p { key := kp, value := vp, prev := lastOr none L1a, next := some z }) z
          = some { key := kz, value := vz, prev := some a, next := firstOr L2a none } := by
        rw [rd_wr_ne _ hpz]; exact hz
      simp only [Delete, hg, load_ok hnode, bind, Except.bind, pure, Except.pure, hg1,
        hlast, firstOr_cons, storeNext_ok hp, storePrev_ok hz1]
      refine ⟨_, rfl, ⟨hnd1, ?_, ?_, ?_, hi1, hi2, hi3⟩, rfl, rfl, ?_, ?_⟩
      · simp only [seg_append, seg_cons, firstOr_cons, firstOr_nil, seg_nil, and_true,
          lastOr_append, lastOr_cons, lastOr_nil, List.append_assoc]
        refine ⟨?_, ?_, ?_, ?_⟩
        · refine (seg_congr _ _ ?_).2 hs1a
          intro y hy
          have hya : y.1 ≠ a := hna y (by simp [hy])
          have hyz : y.1 ≠ z := addr_ne_of_append hnd1 (x := y) (y := (z, kz, vz))
            (by simp [hy]) (by simp)
          simp [rd_release, hya.symm, rd_wr, (hframe1 y hy).symm, hyz.symm]
        · simp [rd_release, hpa.symm, rd_wr, hpz.symm, hpz, rd_lt hp]
        · simp [rd_release, hza.symm, rd_wr, hpz, rd_lt hz]
        · refine (seg_congr _ _ ?_).2 hs2.2
          intro y hy
          have hya : y.1 ≠ a := hna y (by simp [hy])
          have hyz : y.1 ≠ z := by
            have := List.Nodup.sublist ((List.sublist_append_right _ _).map Prod.fst) hnd1
            exact addr_ne_of_cons this hy
          have hyp : p ≠ y.1 := addr_ne_of_append hnd1 (x := (p, kp, vp)) (y := y)
            (by simp) (by simp [hy])
          simp [rd_release, hya.symm, rd_wr, hyp, hyz.symm]
      · simp [hhead, firstOr_append]
      · simp [htail, lastOr_append]
      · simp [rd_release]
      · intro b hb
        have h1 : b ≠ p := by rintro rfl; rw [hp] at hb; cases hb
        have h2 : b ≠ z := by rintro rfl; rw [hz] at hb; cases hb
        simp [rd_release, rd_wr, h1.symm, h2.symm, hb]

/-! ## The eviction loop -/

theorem lastOr_isSome (a : Nat) (L : List Cell) : (lastOr (some a) L).isSome = true := by
  induction L generalizing a with
  | nil => rfl
  | cons x L ih => exact ih x.1

theorem loop_rep (need : Nat) {L : List Cell} :
    ∀ {s : SimpleLRU} {fuel : Nat}, Rep s L → L.length ≤ fuel →
    ∃ n s1, RemoveOldLoop need fuel s = .ok (true, s1) ∧ n ≤ L.length ∧ Rep s1 (L.drop n) ∧
      s1._cur_size = freed s._cur_size ((L.take n).map Prod.snd) ∧
      s1._max_size = s._max_size ∧
      (∀ m, m < n → freed s._cur_size ((L.take m).map Prod.snd) < need) ∧
      (n < L.length → need ≤ s1._cur_size) ∧
      (∀ x ∈ L.take n, rd s1.heap x.1 = none) ∧
      (∀ b, rd s.heap b = none → rd s1.heap b = none) := by
  induction L with
  | nil =>
    intro s fuel hr _
    have ht : s._lru_tail = none := hr.2.2.2.1
    refine ⟨0, s, ?_, le_refl _, hr, rfl, rfl, by simp, by simp, by simp, fun _ h => h⟩
    cases fuel <;> simp [RemoveOldLoop, ht, pure, Except.pure]
  | cons x L ih =>
    intro s fuel hr hf
    obtain ⟨a, k, v⟩ := x
    obtain ⟨f, rfl⟩ : ∃ f, fuel = f + 1 := ⟨fuel - 1, by simp at hf; omega⟩
    have hf1 : L.length ≤ f := by simpa using hf
    have ht : s._lru_tail.isSome = true := by
      rw [hr.2.2.2.1]
      exact lastOr_isSome _ _
    have hh : s._lru_head = some a := hr.2.2.1
    have hnode := hr.2.1.1
    by_cases hc : s._cur_size < need
    · obtain ⟨s1, hd, hr1, hcur1, hmax1, hgone, hkeep⟩ := @delete_rep s [] L a k v hr
      obtain ⟨n, s2, hl, hn, hr2, hcur2, hmax2, hmin, hstop, hdead, hkeep2⟩ := ih hr1 hf1
      refine ⟨n + 1, s2, ?_, by simpa using hn, by simpa using hr2, ?_, by rw [hmax2, hmax1],
        ?_, ?_, ?_, fun b hb => hkeep2 b (hkeep b hb)⟩
      · simp [RemoveOldLoop, ht, hc, hh, ptr, load_ok hnode, bind, Except.bind, hd, hl]
      · rw [hcur2, hcur1]; simp [freed]
      · intro m hm
        cases m with
        | zero => simpa [freed] using hc
        | succ m =>
          have := hmin m (by omega)
          rw [hcur1] at this
          simpa [freed] using this
      · intro h
        exact hstop (by simpa using h)
      · intro y hy
        simp only [List.take_succ_cons, List.mem_cons] at hy
        rcases hy with rfl | hy
        · exact hkeep2 _ hgone
        · exact hdead y hy
    · refine ⟨0, s, ?_, by simp, hr, rfl, rfl, by simp, fun _ => by simpa using hc, by simp,
        fun _ h => h⟩
      simp [RemoveOldLoop, hc, pure, Except.pure]

/-! ## RemoveOldNodes and the index on insertion -/

theorem rep_length_le {s : SimpleLRU} {L : List Cell} (hr : Rep s L) :
    L.length ≤ s._lru_index.length := by
  obtain ⟨hnd, -, -, -, -, hcmp, -⟩ := hr
  have hsub : L.map (fun x => (x.2.1, x.1)) ⊆ s._lru_index := by
    intro e he
    obtain ⟨x, hx, rfl⟩ := List.mem_map.1 he
    exact lookup_mem (hcmp x hx)
  have hn : (L.map (fun x => (x.2.1, x.1))).Nodup := by
    have : (L.map (fun x : Cell => (x.2.1, x.1))).map Prod.snd = L.map Prod.fst := by
      simp [List.map_map, Function.comp_def]
    exact List.Nodup.of_map Prod.snd (this ▸ hnd)
  simpa using (List.subperm_of_subset hn hsub).length_le

theorem removeOld_rep {need : Nat} {s : SimpleLRU} {L : List Cell} (hr : Rep s L)
    (hle : need ≤ s._max_size) :
    ∃ n s1, RemoveOldNodes need s = .ok (true, s1) ∧ n ≤ L.length ∧ Rep s1 (L.drop n) ∧
      s1._cur_size = freed s._cur_size ((L.take n).map Prod.snd) ∧
      s1._max_size = s._max_size ∧
      (∀ m, m < n → freed s._cur_size ((L.take m).map Prod.snd) < need) ∧
      (n < L.length → need ≤ s1._cur_size) ∧
      (∀ x ∈ L.take n, rd s1.heap x.1 = none) ∧
      (∀ b, rd s.heap b = none → rd s1.heap b = none) := by
  have hf : L.length ≤ s._lru_index.length + 1 := Nat.le_succ_of_le (rep_length_le hr)
  have := loop_rep need hr hf
  simpa [RemoveOldNodes, Nat.not_lt.2 hle] using this

theorem removeOld_big {need : Nat} {s : SimpleLRU} (h : s._max_size < need) :
    RemoveOldNodes need s = .ok (false, s) := by
  simp [RemoveOldNodes, h, pure, Except.pure]

/-- Adding a key that no cell carries keeps the index in step with the cells. -/
theorem index_insert {idx : List (Str × Nat)} {L : List Cell} {a : Nat} {k v : Str}
    (hsnd : ∀ e ∈ idx, (e.2, e.1) ∈ L.map (fun x => (x.1, x.2.1)))
    (hcmp : ∀ x ∈ L, idx.lookup x.2.1 = some x.1)
    (hind : (idx.map Prod.fst).Nodup)
    (hk : idx.lookup k = none) :
    (∀ e ∈ (k, a) :: idx, (e.2, e.1) ∈ (L ++ [(a, k, v)]).map (fun x => (x.1, x.2.1))) ∧
    (∀ x ∈ L ++ [(a, k, v)], ((k, a) :: idx).lookup x.2.1 = some x.1) ∧
    (((k, a) :: idx).map Prod.fst).Nodup := by
  refine ⟨?_, ?_, ?_⟩
  · intro e he
    rcases List.mem_cons.1 he with rfl | he
    · simp
    · have := hsnd e he
      simp only [List.map_append, List.mem_append]
      exact Or.inl this
  · intro x hx
    rw [List.mem_append] at hx
    rcases hx with hx | hx
    · have h1 := hcmp x hx
      have hne : x.2.1 ≠ k := by
        intro e
        rw [e, hk] at h1
        cases h1
      have : (x.2.1 == k) = false := by simpa using hne
      rw [List.lookup_cons, this]
      exact h1
    · simp only [List.mem_singleton] at hx
      subst hx
      simp [List.lookup_cons]
  · rw [List.map_cons, List.nodup_cons]
    refine ⟨?_, hind⟩
    intro hm
    obtain ⟨e, he, hek⟩ := List.mem_map.1 hm
    obtain ⟨k1, a1⟩ := e
    simp only at hek
    subst hek
    rw [lookup_of_mem hind he] at hk
    cases hk

/-! ## PutAnyway -/

theorem rd_snoc (h : Heap) (n : lru_node) (b : Nat) :
    rd (h ++ [some n]) b = if b = h.length then some n else rd h b := by
  unfold rd
  simp only [List.getElem?_append]
  by_cases hb : b < h.length
  · simp [hb, Nat.ne_of_lt hb]
  · by_cases hb2 : b = h.length
    · simp [hb2]
    · have h1 : h.length ≤ b := by omega
      obtain ⟨d, hd⟩ : ∃ d, b - h.length = d + 1 := ⟨b - h.length - 1, by omega⟩
      simp [hb, hb2, List.getElem?_eq_none h1, hd]

theorem putAnyway_big {k v : Str} {s : SimpleLRU}
    (h : s._max_size < uadd (size k) (size v)) : s.PutAnyway k v = .ok (false, s) := by
  simp [PutAnyway, removeOld_big h, bind, Except.bind, pure, Except.pure]

theorem putAnyway_rep {k v : Str} {s : SimpleLRU} {L : List Cell} (hr : Rep s L)
    (habs : s.GetNode k = none) (hle : uadd (size k) (size v) ≤ s._max_size) :
    ∃ n a s1, s.PutAnyway k v = .ok (true, s1) ∧ n ≤ L.length ∧
      Rep s1 (L.drop n ++ [(a, k, v)]) ∧
      s1._cur_size = usub (freed s._cur_size ((L.take n).map Prod.snd)) (uadd (size k) (size v)) ∧
      s1._max_size = s._max_size ∧
      (∀ m, m < n → freed s._cur_size ((L.take m).map Prod.snd) < uadd (size k) (size v)) ∧
      (n < L.length → uadd (size k) (size v) ≤ freed s._cur_size ((L.take n).map Prod.snd)) := by
  obtain ⟨n, s1, hrm, hn, hr1, hcur, hmax, hmin, hstop, -, -⟩ := removeOld_rep hr hle
  have hk1 : s1._lru_index.lookup k = none := by
    apply (rep_absent hr1 k).2
    intro x hx
    exact (rep_absent hr k).1 habs x (List.mem_of_mem_drop hx)
  obtain ⟨hnd, hseg, hhead, htail, hsnd, hcmp, hind⟩ := hr1
  obtain ⟨hi1, hi2, hi3⟩ := index_insert (a := s1.heap.length) (v := v) hsnd hcmp hind hk1
  have hfresh : ∀ y ∈ L.drop n, y.1 ≠ s1.heap.length := by
    intro y hy e
    obtain ⟨m, hm, -⟩ := seg_mem hseg hy
    have := rd_lt hm
    omega
  have hnd1 : ((L.drop n ++ [(s1.heap.length, k, v)]).map Prod.fst).Nodup := by
    rw [List.map_append, List.nodup_append]
    refine ⟨hnd, by simp, ?_⟩
    intro b hb hb2
    obtain ⟨y, hy, rfl⟩ := List.mem_map.1 hb
    simp only [List.map_cons, List.map_nil, List.mem_singleton] at hb2
    exact hfresh y hy hb2
  have hA : rd (s1.heap ++ [some { key := [], value := [], prev := none, next := none }])
      s1.heap.length = some { key := [], value := [], prev := none, next := none } := by
    simp [rd_snoc]
  have hstop1 := hcur ▸ hstop
  refine ⟨n, s1.heap.length, ?_⟩
  rcases List.eq_nil_or_concat (L.drop n) with hnil | ⟨M, ⟨t, kt, vt⟩, hM⟩
  · rw [hnil] at htail hhead hseg hnd1 hi1 hi2 ⊢
    simp only [lastOr_nil] at htail
    simp only [PutAnyway, hrm, bind, Except.bind, pure, Except.pure, htail, alloc, FillNode, ptr,
      hk1, load_ok hA]
    refine ⟨_, rfl, hn, ⟨hnd1, ?_, rfl, rfl, hi1, hi2, hi3⟩, by simp [hcur], hmax, hmin, hstop1⟩
    simp only [List.nil_append, seg_cons, seg_nil, and_true, firstOr_nil]
    exact rd_wr_same _ hA
  · simp only [List.concat_eq_append] at hM
    rw [hM] at htail hhead hseg hnd1 hi1 hi2 hfresh ⊢
    have htail1 : s1._lru_tail = some t := by simp [htail, lastOr_append]
    rw [seg_append, seg_cons] at hseg
    obtain ⟨hsM, ht, -⟩ := hseg
    simp only [firstOr_nil, firstOr_cons] at hsM ht
    have hta : t ≠ s1.heap.length := hfresh (t, kt, vt) (by simp)
    have ht1 : rd (s1.heap ++ [some { key := [], value := [], prev := none, next := none }]) t
        = some { key := kt, value := vt, prev := lastOr none M, next := none } := by
      simp [rd_snoc, hta, ht]
    have hA1 : rd (wr (s1.heap ++ [some { key := [], value := [], prev := none, next := none }]) t
          { key := kt, value := vt, prev := lastOr none M, next := some s1.heap.length })
        s1.heap.length = some { key := [], value := [], prev := none, next := none } := by
      rw [rd_wr_ne _ hta]; exact hA
    have ht2 := rd_wr_same
      { key := kt, value := vt, prev := lastOr none M, next := some s1.heap.length } ht1
    have ht3 : rd (wr (wr (s1.heap ++ [some { key := [], value := [], prev := none, next := none }]) t
          { key := kt, value := vt, prev := lastOr none M, next := some s1.heap.length })
          s1.heap.length { key := k, value := v, prev := some t, next := none }) t
        = some { key := kt, value := vt, prev := lastOr none M, next := some s1.heap.length } := by
      rw [rd_wr_ne _ (Ne.symm hta)]; exact ht2
    simp only [PutAnyway, hrm, bind, Except.bind, pure, Except.pure, htail1, alloc, FillNode, ptr,
      hk1, storeNext_ok ht1, load_ok ht2, load_ok hA1, storeNext_ok ht3, load_ok (rd_wr_same _ ht3)]
    refine ⟨_, rfl, hn, ⟨hnd1, ?_, ?_, ?_, hi1, hi2, hi3⟩, by simp [hcur], hmax, hmin, hstop1⟩
    · simp only [seg_append, seg_cons, seg_nil, and_true, firstOr_nil, firstOr_cons, lastOr_append,
        lastOr_cons, lastOr_nil]
      have hA2 := rd_wr_same { key := k, value := v, prev := some t, next := none } hA1
      refine ⟨⟨?_, ?_⟩, ?_⟩
      · refine (seg_congr _ _ ?_).2 hsM
        intro y hy
        have hya : y.1 ≠ s1.heap.length := hfresh y (by simp [hy])
        have hyt : y.1 ≠ t := by
          have := List.Nodup.sublist ((List.sublist_append_left _ _).map Prod.fst) hnd1
          exact addr_ne_of_append this hy (y := (t, kt, vt)) (by simp)
        simp [rd_wr, rd_snoc, hya, hya.symm, hyt.symm]
      · exact rd_wr_same _ ht3
      · rw [rd_wr_ne _ hta]; exact hA2
    · simp [hhead, firstOr_append]
    · simp [lastOr_append]

/-! ## RearrangeToTail -/

theorem rearrange_last {s : SimpleLRU} {L1 : List Cell} {a : Nat} {k v : Str}
    (hr : Rep s (L1 ++ [(a, k, v)])) : s.RearrangeToTail a = .ok s := by
  obtain ⟨-, hseg, -⟩ := hr
  rw [seg_append, seg_cons] at hseg
  have hnode := hseg.2.1
  simp only [firstOr_nil] at hnode
  simp [RearrangeToTail, load_ok hnode, bind, Except.bind, pure, Except.pure]

theorem rearrange_rep {s : SimpleLRU} {L1 L2 : List Cell} {a : Nat} {k v : Str}
    (hr : Rep s (L1 ++ (a, k, v) :: L2)) (hne : L2 ≠ []) :
    ∃ s1, s.RearrangeToTail a = .ok s1 ∧ Rep s1 (L1 ++ L2 ++ [(a, k, v)]) ∧
      s1._cur_size = s._cur_size ∧ s1._max_size = s._max_size ∧
      s1._lru_index = s._lru_index := by
  obtain ⟨hnd, hseg, hhead, htail, hsnd, hcmp, hind⟩ := hr
  have hnd1 : ((L1 ++ L2 ++ [(a, k, v)]).map Prod.fst).Nodup := by
    have : List.Perm ((L1 ++ L2 ++ [(a, k, v)]).map Prod.fst) ((L1 ++ (a, k, v) :: L2).map Prod.fst) := by
      apply List.Perm.map
      rw [List.append_assoc]
      exact List.Perm.append_left _ (List.perm_append_singleton _ _)
    exact this.nodup_iff.2 hnd
  have hsnd1 : ∀ e ∈ s._lru_index,
      (e.2, e.1) ∈ (L1 ++ L2 ++ [(a, k, v)]).map (fun x => (x.1, x.2.1)) := by
    intro e he
    have := hsnd e he
    simp only [List.map_append, List.map_cons, List.mem_append, List.mem_cons, List.map_nil,
      List.not_mem_nil, or_false] at this ⊢
    tauto
  have hcmp1 : ∀ x ∈ L1 ++ L2 ++ [(a, k, v)], s._lru_index.lookup x.2.1 = some x.1 := by
    intro x hx
    apply hcmp
    simp only [List.mem_append, List.mem_cons, List.not_mem_nil, or_false] at hx ⊢
    tauto
  obtain ⟨hnd2, hna⟩ := nodup_erase_mid hnd
  simp only at hna
  rw [seg_append, seg_cons] at hseg
  obtain ⟨hs1, hnode, hs2⟩ := hseg
  simp only [firstOr_cons] at hs1 hnode hs2
  have ha_lt := rd_lt hnode
  obtain ⟨⟨q, kq, vq⟩, L2a, rfl⟩ := List.exists_cons_of_ne_nil hne
  have hq := hs2.1
  simp only at hq
  have hq_lt := rd_lt hq
  have hqa : q ≠ a := hna (q, kq, vq) (by simp)
  have hL1 : (L1.map Prod.fst).Nodup :=
    List.Nodup.sublist ((List.sublist_append_left _ _).map Prod.fst) hnd2
  have hL2 : (((q, kq, vq) :: L2a).map Prod.fst).Nodup :=
    List.Nodup.sublist ((List.sublist_append_right _ _).map Prod.fst) hnd2
  have hL12 : ∀ x ∈ L1, ∀ y ∈ (q, kq, vq) :: L2a, x.1 ≠ y.1 :=
    fun x hx y hy => addr_ne_of_append hnd2 hx hy
  rcases List.eq_nil_or_concat L2a with rfl | ⟨M, ⟨t, kt, vt⟩, rfl⟩
  · -- the successor is the tail
    rcases List.eq_nil_or_concat L1 with rfl | ⟨L1a, ⟨p, kp, vp⟩, rfl⟩
    · have ht : s._lru_tail = some q := by simp [htail]
      simp only [firstOr_nil, lastOr_nil, firstOr_cons] at hq hnode
      simp [RearrangeToTail, load, storeNext, storePrev, ptr, bind, Except.bind, pure,
        Except.pure, hnode, hq, ht, rd_wr, hqa, hqa.symm, hq_lt, ha_lt]
      refine ⟨by simpa using hnd1, ?_, rfl, rfl, by simpa using hsnd1, by simpa using hcmp1, hind⟩
      simp [seg_cons, rd_wr, hqa, hqa.symm, hq_lt, ha_lt]
    · simp only [List.concat_eq_append] at *
      have ht : s._lru_tail = some q := by simp [htail, lastOr_append]
      have hp : rd s.heap p = some { key := kp, value := vp, prev := lastOr none L1a, next := some a } := by
        rw [seg_append, seg_cons] at hs1
        simpa using hs1.2.1
      have hs1a : Seg s.heap none L1a (some p) := by
        rw [seg_append] at hs1
        simpa using hs1.1
      have hp_lt := rd_lt hp
      have hpa : p ≠ a := hna (p, kp, vp) (by simp)
      have hpq : p ≠ q := hL12 (p, kp, vp) (by simp) (q, kq, vq) (by simp)
      simp only [firstOr_nil, lastOr_nil, firstOr_cons, lastOr_append, lastOr_cons] at hq hnode
      simp [RearrangeToTail, load, storeNext, storePrev, ptr, bind, Except.bind, pure,
        Except.pure, hnode, hq, ht, hp, rd_wr, hqa, hqa.symm, hpa, hpa.symm, hpq, hpq.symm,
        hq_lt, ha_lt, hp_lt]
      refine ⟨by simpa using hnd1, ?_, by simp [hhead, firstOr_append], by simp [lastOr_append],
        by simpa using hsnd1, by simpa using hcmp1, hind⟩
      simp only [seg_append, seg_cons, seg_nil, and_true, firstOr_nil, firstOr_cons, lastOr_append,
        lastOr_cons, lastOr_nil, List.append_assoc, List.cons_append, List.nil_append]
      refine ⟨?_, ?_⟩
      · refine (seg_congr _ _ ?_).2 hs1a
        intro y hy
        have hya : y.1 ≠ a := hna y (by simp [hy])
        have hyq : y.1 ≠ q := hL12 y (by simp [hy]) (q, kq, vq) (by simp)
        have hyp : y.1 ≠ p := addr_ne_of_append hL1 hy (y := (p, kp, vp)) (by simp)
        simp [rd_wr, hya.symm, hyq.symm, hyp.symm]
      · simp [rd_wr, hqa, hqa.symm, hpa, hpa.symm, hpq, hpq.symm, hq_lt, ha_lt, hp_lt]
  · simp only [List.concat_eq_append] at *
    have ht0 : rd s.heap t = some { key := kt, value := vt, prev := lastOr (some q) M, next := none } := by
      have := hs2.2
      rw [seg_append, seg_cons] at this
      simpa using this.2.1
    have hsM : Seg s.heap (some q) M (some t) := by
      have := hs2.2
      rw [seg_append] at this
      simpa using this.1
    have ht_lt := rd_lt ht0
    have hta : t ≠ a := hna (t, kt, vt) (by simp)
    have htq : t ≠ q := addr_ne_of_cons hL2 (y := (t, kt, vt)) (by simp)
    have hLM : ((M ++ [(t, kt, vt)]).map Prod.fst).Nodup := by
      rw [List.map_cons, List.nodup_cons] at hL2
      exact hL2.2
    have hframeM : ∀ y ∈ M, y.1 ≠ a ∧ y.1 ≠ q ∧ y.1 ≠ t := by
      intro y hy
      exact ⟨hna y (by simp [hy]), addr_ne_of_cons hL2 (by simp [hy]),
        addr_ne_of_append hLM hy (y := (t, kt, vt)) (by simp)⟩
    rcases List.eq_nil_or_concat L1 with rfl | ⟨L1a, ⟨p, kp, vp⟩, rfl⟩
    · have ht : s._lru_tail = some t := by simp [htail, lastOr_append]
      simp only [firstOr_nil, lastOr_nil, firstOr_cons, firstOr_append] at hq hnode
      simp [RearrangeToTail, load, storeNext, storePrev, ptr, bind, Except.bind, pure,
        Except.pure, hnode, hq, ht, ht0, rd_wr, hqa, hqa.symm, hta, hta.symm, htq, htq.symm,
        hq_lt, ha_lt, ht_lt]
      refine ⟨by simpa using hnd1, ?_, by simp, by simp [lastOr_append],
        by simpa using hsnd1, by simpa using hcmp1, hind⟩
      simp only [seg_append, seg_cons, seg_nil, and_true, firstOr_nil, firstOr_cons, lastOr_append,
        lastOr_cons, lastOr_nil, List.append_assoc, List.cons_append, List.nil_append,
        firstOr_append]
      refine ⟨?_, ?_, ?_⟩
      · simp [rd_wr, hqa, hqa.symm, hta, hta.symm, htq, htq.symm, hq_lt, ha_lt, ht_lt]
      · refine (seg_congr _ _ ?_).2 hsM
        intro y hy
        obtain ⟨h1, h2, h3⟩ := hframeM y hy
        simp [rd_wr, h1.symm, h2.symm, h3.symm]
      · simp [rd_wr, hqa, hqa.symm, hta, hta.symm, htq, htq.symm, hq_lt, ha_lt, ht_lt]
    · simp only [List.concat_eq_append] at *
      have ht : s._lru_tail = some t := by simp [htail, lastOr_append]
      have hp : rd s.heap p = some { key := kp, value := vp, prev := lastOr none L1a, next := some a } := by
        rw [seg_append, seg_cons] at hs1
        simpa using hs1.2.1
      have hs1a : Seg s.heap none L1a (some p) := by
        rw [seg_append] at hs1
        simpa using hs1.1
      have hp_lt := rd_lt hp
      have hpa : p ≠ a := hna (p, kp, vp) (by simp)
      have hpq : p ≠ q := hL12 (p, kp, vp) (by simp) (q, kq, vq) (by simp)
      have hpt : p ≠ t := hL12 (p, kp, vp) (by simp) (t, kt, vt) (by simp)
      simp only [firstOr_nil, lastOr_nil, firstOr_cons, lastOr_append, lastOr_cons,
        firstOr_append] at hq hnode
      simp [RearrangeToTail, load, storeNext, storePrev, ptr, bind, Except.bind, pure,
        Except.pure, hnode, hq, ht, ht0, hp, rd_wr, hqa, hqa.symm, hta, hta.symm, htq, htq.symm,
        hpa, hpa.symm, hpq, hpq.symm, hpt, hpt.symm, hq_lt, ha_lt, ht_lt, hp_lt]
      refine ⟨by simpa using hnd1, ?_, by simp [hhead, firstOr_append], by simp [lastOr_append],
        by simpa using hsnd1, by simpa using hcmp1, hind⟩
      simp only [seg_append, seg_cons, seg_nil, and_true, firstOr_nil, firstOr_cons, lastOr_append,
        lastOr_cons, lastOr_nil, List.append_assoc, List.cons_append, List.nil_append,
        firstOr_append]
      refine ⟨?_, ?_, ?_, ?_, ?_⟩
      · refine (seg_congr _ _ ?_).2 hs1a
        intro y hy
        have hya : y.1 ≠ a := hna y (by simp [hy])
        have hyq : y.1 ≠ q := hL12 y (by simp [hy]) (q, kq, vq) (by simp)
        have hyt : y.1 ≠ t := hL12 y (by simp [hy]) (t, kt, vt) (by simp)
        have hyp : y.1 ≠ p := addr_ne_of_append hL1 hy (y := (p, kp, vp)) (by simp)
        simp [rd_wr, hya.symm, hyq.symm, hyp.symm, hyt.symm]
      · simp [rd_wr, hqa, hqa.symm, hta, hta.symm, htq, htq.symm,
          hpa, hpa.symm, hpq, hpq.symm, hpt, hpt.symm, hq_lt, ha_lt, ht_lt, hp_lt]
      · simp [rd_wr, hqa, hqa.symm, hta, hta.symm, htq, htq.symm,
          hpa, hpa.symm, hpq, hpq.symm, hpt, hpt.symm, hq_lt, ha_lt, ht_lt, hp_lt]
      · refine (seg_congr _ _ ?_).2 hsM
        intro y hy
        obtain ⟨h1, h2, h3⟩ := hframeM y hy
        have hyp : p ≠ y.1 := hL12 (p, kp, vp) (by simp) y (by simp [hy])
        simp [rd_wr, h1.symm, h2.symm, h3.symm, hyp]
      · simp [rd_wr, hqa, hqa.symm, hta, hta.symm, htq, htq.symm,
          hpa, hpa.symm, hpq, hpq.symm, hpt, hpt.symm, hq_lt, ha_lt, ht_lt, hp_lt]

/-! ## Get and value updates -/

theorem rearrange_any {s : SimpleLRU} {L1 L2 : List Cell} {a : Nat} {k v : Str}
    (hr : Rep s (L1 ++ (a, k, v) :: L2)) :
    ∃ s1, s.RearrangeToTail a = .ok s1 ∧ Rep s1 (L1 ++ L2 ++ [(a, k, v)]) ∧
      s1._cur_size = s._cur_size ∧ s1._max_size = s._max_size ∧
      s1._lru_index = s._lru_index ∧ (L2 = [] → s1 = s) := by
  by_cases hne : L2 = []
  · subst hne
    exact ⟨s, rearrange_last hr, by simpa using hr, rfl, rfl, rfl, fun _ => rfl⟩
  · obtain ⟨s1, h1, h2, h3, h4, h5⟩ := rearrange_rep hr hne
    exact ⟨s1, h1, h2, h3, h4, h5, fun h => absurd h hne⟩

theorem rep_node {s : SimpleLRU} {L1 L2 : List Cell} {a : Nat} {k v : Str}
    (hr : Rep s (L1 ++ (a, k, v) :: L2)) :
    rd s.heap a = some { key := k, value := v, prev := lastOr none L1, next := firstOr L2 none } := by
  obtain ⟨-, hseg, -⟩ := hr
  rw [seg_append, seg_cons] at hseg
  exact hseg.2.1

theorem get_rep {s : SimpleLRU} {L1 L2 : List Cell} {a : Nat} {k v : Str} (out : Str)
    (hr : Rep s (L1 ++ (a, k, v) :: L2)) :
    ∃ s1, s.Get k out = .ok (true, v, s1) ∧ Rep s1 (L1 ++ L2 ++ [(a, k, v)]) ∧
      s1._cur_size = s._cur_size ∧ s1._max_size = s._max_size ∧
      s1._lru_index = s._lru_index ∧ (L2 = [] → s1 = s) := by
  have hg : s.GetNode k = some a := (rep_lookup hr k a).2 ⟨v, by simp⟩
  obtain ⟨s1, h1, h2⟩ := rearrange_any hr
  refine ⟨s1, ?_, h2⟩
  simp [Get, hg, load_ok (rep_node hr), h1, bind, Except.bind, pure, Except.pure]

theorem get_absent {s : SimpleLRU} {k : Str} (out : Str) (h : s.GetNode k = none) :
    s.Get k out = .ok (false, out, s) := by
  simp [Get, h, pure, Except.pure]

/-- Overwriting the value of a node (and the free budget) keeps the list shape. -/
theorem rep_set_value {s : SimpleLRU} {L1 L2 : List Cell} {a : Nat} {k v0 : Str}
    (hr : Rep s (L1 ++ (a, k, v0) :: L2)) (v : Str) (c : Nat) :
    Rep { s with _cur_size := c,
                 heap := wr s.heap a { key := k, value := v, prev := lastOr none L1,
                                       next := firstOr L2 none } }
      (L1 ++ (a, k, v) :: L2) := by
  have hnode := rep_node hr
  obtain ⟨hnd, hseg, hhead, htail, hsnd, hcmp, hind⟩ := hr
  obtain ⟨-, hna⟩ := nodup_erase_mid hnd
  simp only at hna
  rw [seg_append, seg_cons] at hseg
  obtain ⟨hs1, -, hs2⟩ := hseg
  refine ⟨by simpa using hnd, ?_, by simpa [firstOr_append] using hhead,
    by simpa [lastOr_append] using htail, by simpa using hsnd, ?_, hind⟩
  · rw [seg_append, seg_cons]
    refine ⟨?_, rd_wr_same _ hnode, ?_⟩
    · refine (seg_congr _ _ ?_).2 hs1
      intro y hy
      exact rd_wr_ne _ (hna y (by simp [hy])).symm
    · refine (seg_congr _ _ ?_).2 hs2
      intro y hy
      exact rd_wr_ne _ (hna y (by simp [hy])).symm
  · intro x hx
    simp only [List.mem_append, List.mem_cons] at hx
    rcases hx with hx | rfl | hx
    · exact hcmp x (by simp [hx])
    · exact hcmp (a, k, v0) (by simp)
    · exact hcmp x (by simp [hx])

/-! ## Set -/

theorem set_absent {s : SimpleLRU} {k : Str} (v : Str) (h : s.GetNode k = none) :
    s.Set k v = .ok (false, s) := by
  simp [SimpleLRU.Set, h, pure, Except.pure]

theorem set_big {s : SimpleLRU} {L1 L2 : List Cell} {a : Nat} {k v0 : Str} (v : Str)
    (hr : Rep s (L1 ++ (a, k, v0) :: L2))
    (hbig : s._max_size < usub (size v) (size v0)) : s.Set k v = .ok (false, s) := by
  have hg : s.GetNode k = some a := (rep_lookup hr k a).2 ⟨v0, by simp⟩
  simp [SimpleLRU.Set, hg, load_ok (rep_node hr), removeOld_big hbig, bind, Except.bind, pure,
    Except.pure]

theorem set_rep {s : SimpleLRU} {L1 L2 : List Cell} {a : Nat} {k v0 : Str} (v : Str)
    (hr : Rep s (L1 ++ (a, k, v0) :: L2))
    (hle : usub (size v) (size v0) ≤ s._max_size) :
    ∃ n, n ≤ (L1 ++ (a, k, v0) :: L2).length ∧
      (∀ m, m < n → freed s._cur_size (((L1 ++ (a, k, v0) :: L2).take m).map Prod.snd)
          < usub (size v) (size v0)) ∧
      (n < (L1 ++ (a, k, v0) :: L2).length →
          usub (size v) (size v0)
            ≤ freed s._cur_size (((L1 ++ (a, k, v0) :: L2).take n).map Prod.snd)) ∧
      (n ≤ L1.length → ∃ s3, s.Set k v = .ok (true, s3) ∧
          Rep s3 (L1.drop n ++ L2 ++ [(a, k, v)]) ∧
          s3._cur_size = uadd (freed s._cur_size ((L1.take n).map Prod.snd))
                            (usub (size v) (size v0)) ∧
          s3._max_size = s._max_size) ∧
      (L1.length < n → s.Set k v = .error .danglingRef) := by
  have hg : s.GetNode k = some a := (rep_lookup hr k a).2 ⟨v0, by simp⟩
  obtain ⟨n, s1, hrm, hn, hr1, hcur, hmax, hmin, hstop, hdead, -⟩ := removeOld_rep hr hle
  refine ⟨n, hn, hmin, hcur ▸ hstop, ?_, ?_⟩
  · intro hn1
    rw [List.drop_append_of_le_length hn1] at hr1
    rw [List.take_append_of_le_length hn1] at hcur
    have hnode1 := rep_node hr1
    have hr2 := rep_set_value hr1 v (uadd s1._cur_size (usub (size v) (size v0)))
    obtain ⟨s3, h3, hr3, hc3, hm3, -⟩ := rearrange_any hr2
    refine ⟨s3, ?_, hr3, by rw [hc3, hcur], by rw [hm3, hmax]⟩
    simp [SimpleLRU.Set, hg, load_ok (rep_node hr), hrm, load_ok hnode1, h3, bind, Except.bind,
      pure, Except.pure]
  · intro hn1
    have hmem : (a, k, v0) ∈ (L1 ++ (a, k, v0) :: L2).take n := by
      rw [List.take_append_eq_append_take]
      apply List.mem_append_right
      obtain ⟨d, hd⟩ : ∃ d, n - L1.length = d + 1 := ⟨n - L1.length - 1, by omega⟩
      rw [hd]
      simp
    have hgone := hdead _ hmem
    simp only at hgone
    have hl : load s1.heap a = .error .danglingRef := by simp [load, hgone]
    simp [SimpleLRU.Set, hg, load_ok (rep_node hr), hrm, hl, bind, Except.bind, pure,
      Except.pure]

/-! ## Outcomes of the public calls and reachability -/

theorem rep_init (max_size : Nat) : Rep (SimpleLRU.init max_size) [] := by
  simp [Rep, SimpleLRU.init]

theorem delete_absent {s : SimpleLRU} {k : Str} (h : s.GetNode k = none) :
    s.Delete k = .ok (false, s) := by
  simp [Delete, h, pure, Except.pure]

theorem put_present {s : SimpleLRU} {k : Str} {a : Nat} (v : Str) (h : s.GetNode k = some a) :
    s.Put k v = s.Set k v := by
  simp only [Put, h, bind, Except.bind, pure, Except.pure]
  cases s.Set k v with
  | error e => rfl
  | ok r => obtain ⟨b, s1⟩ := r; cases b <;> rfl

theorem put_absent {s : SimpleLRU} {k : Str} (v : Str) (h : s.GetNode k = none) :
    s.Put k v = s.PutAnyway k v := by
  simp only [Put, h, bind, Except.bind, pure, Except.pure]
  cases s.PutAnyway k v with
  | error e => rfl
  | ok r => obtain ⟨b, s1⟩ := r; cases b <;> rfl

theorem putIfAbsent_present {s : SimpleLRU} {k : Str} {a : Nat} (v : Str)
    (h : s.GetNode k = some a) : s.PutIfAbsent k v = .ok (false, s) := by
  simp [PutIfAbsent, h, pure, Except.pure]

theorem putIfAbsent_absent {s : SimpleLRU} {k : Str} (v : Str) (h : s.GetNode k = none) :
    s.PutIfAbsent k v = s.PutAnyway k v := by
  simp only [PutIfAbsent, h, bind, Except.bind, pure, Except.pure]
  cases s.PutAnyway k v with
  | error e => rfl
  | ok r => obtain ⟨b, s1⟩ := r; cases b <;> rfl

/-- Every outcome of `PutAnyway` for an absent key: a refusal that changes
nothing, or a success that evicts a leading part of the sequence and appends
the new entry. -/
theorem putAnyway_cases {k v : Str} {s s1 : SimpleLRU} {L : List Cell} {b : Bool}
    (hr : Rep s L) (habs : s.GetNode k = none) (h : s.PutAnyway k v = .ok (b, s1)) :
    (b = false ∧ s1 = s ∧ s._max_size < uadd (size k) (size v)) ∨
    (b = true ∧ uadd (size k) (size v) ≤ s._max_size ∧
      ∃ n a, n ≤ L.length ∧ Rep s1 (L.drop n ++ [(a, k, v)]) ∧
        s1._cur_size = usub (freed s._cur_size ((L.take n).map Prod.snd))
                         (uadd (size k) (size v)) ∧
        s1._max_size = s._max_size ∧
        (∀ m, m < n → freed s._cur_size ((L.take m).map Prod.snd) < uadd (size k) (size v)) ∧
        (n < L.length →
          uadd (size k) (size v) ≤ freed s._cur_size ((L.take n).map Prod.snd))) := by
  by_cases hbig : s._max_size < uadd (size k) (size v)
  · rw [putAnyway_big hbig] at h
    cases h
    exact Or.inl ⟨rfl, rfl, hbig⟩
  · have hle := Nat.not_lt.1 hbig
    obtain ⟨n, a, s2, h2, hn, hr2, hc, hm, hmin, hstop⟩ := putAnyway_rep (v := v) hr habs hle
    rw [h2] at h
    cases h
    exact Or.inr ⟨rfl, hle, n, a, hn, hr2, hc, hm, hmin, hstop⟩

/-- Every fault-free outcome of `Set` on a present key: a refusal that changes
nothing, or a success after which the key is the last cell, with the new
value. -/
theorem set_cases {s s1 : SimpleLRU} {L1 L2 : List Cell} {a : Nat} {k v0 v : Str} {b : Bool}
    (hr : Rep s (L1 ++ (a, k, v0) :: L2)) (h : s.Set k v = .ok (b, s1)) :
    (b = false ∧ s1 = s ∧ s._max_size < usub (size v) (size v0)) ∨
    (b = true ∧ usub (size v) (size v0) ≤ s._max_size ∧
      ∃ n, n ≤ L1.length ∧ Rep s1 (L1.drop n ++ L2 ++ [(a, k, v)]) ∧
        s1._cur_size = uadd (freed s._cur_size ((L1.take n).map Prod.snd))
                         (usub (size v) (size v0)) ∧
        s1._max_size = s._max_size) := by
  by_cases hbig : s._max_size < usub (size v) (size v0)
  · rw [set_big v hr hbig] at h
    cases h
    exact Or.inl ⟨rfl, rfl, hbig⟩
  · have hle := Nat.not_lt.1 hbig
    obtain ⟨n, -, -, -, hok, hbad⟩ := set_rep v hr hle
    by_cases hn : n ≤ L1.length
    · obtain ⟨s3, h3, hr3, hc3, hm3⟩ := hok hn
      rw [h3] at h
      cases h
      exact Or.inr ⟨rfl, hle, n, hn, hr3, hc3, hm3⟩
    · rw [hbad (Nat.not_le.1 hn)] at h
      cases h

theorem mem_split_cell {L : List Cell} {s : SimpleLRU} {k : Str} {a : Nat} (hr : Rep s L)
    (hg : s.GetNode k = some a) : ∃ L1 v L2, L = L1 ++ (a, k, v) :: L2 := by
  obtain ⟨v, hv⟩ := (rep_lookup hr k a).1 hg
  obtain ⟨L1, L2, h⟩ := List.append_of_mem hv
  exact ⟨L1, v, L2, h⟩

theorem rep_Put {s s1 : SimpleLRU} {k v : Str} {b : Bool} (hw : ∃ L, Rep s L)
    (h : s.Put k v = .ok (b, s1)) : ∃ L, Rep s1 L := by
  obtain ⟨L, hr⟩ := hw
  cases hg : s.GetNode k with
  | none =>
    rw [put_absent v hg] at h
    rcases putAnyway_cases hr hg h with ⟨-, rfl, -⟩ | ⟨-, -, n, a, -, hr1, -⟩
    · exact ⟨L, hr⟩
    · exact ⟨_, hr1⟩
  | some a =>
    rw [put_present v hg] at h
    obtain ⟨L1, v0, L2, rfl⟩ := mem_split_cell hr hg
    rcases set_cases hr h with ⟨-, rfl, -⟩ | ⟨-, -, n, -, hr1, -⟩
    · exact ⟨_, hr⟩
    · exact ⟨_, hr1⟩

theorem rep_PutIfAbsent {s s1 : SimpleLRU} {k v : Str} {b : Bool} (hw : ∃ L, Rep s L)
    (h : s.PutIfAbsent k v = .ok (b, s1)) : ∃ L, Rep s1 L := by
  obtain ⟨L, hr⟩ := hw
  cases hg : s.GetNode k with
  | none =>
    rw [putIfAbsent_absent v hg] at h
    rcases putAnyway_cases hr hg h with ⟨-, rfl, -⟩ | ⟨-, -, n, a, -, hr1, -⟩
    · exact ⟨L, hr⟩
    · exact ⟨_, hr1⟩
  | some a =>
    rw [putIfAbsent_present v hg] at h
    cases h
    exact ⟨L, hr⟩

theorem rep_Set {s s1 : SimpleLRU} {k v : Str} {b : Bool} (hw : ∃ L, Rep s L)
    (h : s.Set k v = .ok (b, s1)) : ∃ L, Rep s1 L := by
  obtain ⟨L, hr⟩ := hw
  cases hg : s.GetNode k with
  | none =>
    rw [set_absent v hg] at h
    cases h
    exact ⟨L, hr⟩
  | some a =>
    obtain ⟨L1, v0, L2, rfl⟩ := mem_split_cell hr hg
    rcases set_cases hr h with ⟨-, rfl, -⟩ | ⟨-, -, n, -, hr1, -⟩
    · exact ⟨_, hr⟩
    · exact ⟨_, hr1⟩

theorem rep_Get {s s1 : SimpleLRU} {k out out1 : Str} {b : Bool} (hw : ∃ L, Rep s L)
    (h : s.Get k out = .ok (b, out1, s1)) : ∃ L, Rep s1 L := by
  obtain ⟨L, hr⟩ := hw
  cases hg : s.GetNode k with
  | none =>
    rw [get_absent out hg] at h
    cases h
    exact ⟨L, hr⟩
  | some a =>
    obtain ⟨L1, v0, L2, rfl⟩ := mem_split_cell hr hg
    obtain ⟨s2, h2, hr2, -⟩ := get_rep out hr
    rw [h2] at h
    cases h
    exact ⟨_, hr2⟩

theorem rep_Delete {s s1 : SimpleLRU} {k : Str} {b : Bool} (hw : ∃ L, Rep s L)
    (h : s.Delete k = .ok (b, s1)) : ∃ L, Rep s1 L := by
  obtain ⟨L, hr⟩ := hw
  cases hg : s.GetNode k with
  | none =>
    rw [delete_absent hg] at h
    cases h
    exact ⟨L, hr⟩
  | some a =>
    obtain ⟨L1, v0, L2, rfl⟩ := mem_split_cell hr hg
    obtain ⟨s2, h2, hr2, -⟩ := delete_rep hr
    rw [h2] at h
    cases h
    exact ⟨_, hr2⟩

/-- Every reachable store is structurally well formed. -/
theorem reachable_rep {s : SimpleLRU} (h : Reachable s) : ∃ L, Rep s L := by
  induction h with
  | init max_size _ => exact ⟨[], rep_init max_size⟩
  | Put k v b _ hstep ih => exact rep_Put ih hstep
  | PutIfAbsent k v b _ hstep ih => exact rep_PutIfAbsent ih hstep
  | Set k v b _ hstep ih => exact rep_Set ih hstep
  | Get k out out1 b _ hstep ih => exact rep_Get ih hstep
  | Delete k b _ hstep ih => exact rep_Delete ih hstep

theorem reachable_wf {s : SimpleLRU} (h : Reachable s) : WF s := by
  obtain ⟨L, hr⟩ := reachable_rep h
  exact wf_of_rep hr

/-! ## Arithmetic of the budget -/

theorem cells_split {L : List Cell} {E1 E2 : List (Str × Str)} {k v : Str}
    (h : L.map Prod.snd = E1 ++ (k, v) :: E2) :
    ∃ L1 a L2, L = L1 ++ (a, k, v) :: L2 ∧ L1.map Prod.snd = E1 ∧ L2.map Prod.snd = E2 := by
  obtain ⟨L1, R, rfl, h1, h2⟩ := List.map_eq_append_iff.1 h
  obtain ⟨x, L2, rfl, hx, h3⟩ := List.map_eq_cons_iff.1 h2
  obtain ⟨a, k1, v1⟩ := x
  cases hx
  exact ⟨L1, a, L2, rfl, h1, h3⟩

theorem size_of_lt {x : Str} (h : x.length < SIZE_MOD) : size x = x.length := by
  unfold size; exact Nat.mod_eq_of_lt h

theorem uadd_of_lt {a b : Nat} (h : a + b < SIZE_MOD) : uadd a b = a + b := by
  unfold uadd; exact Nat.mod_eq_of_lt h

theorem cost_size {k v : Str} (h : k.length + v.length < SIZE_MOD) :
    uadd (size k) (size v) = k.length + v.length := by
  rw [size_of_lt (by omega), size_of_lt (by omega), uadd_of_lt h]

theorem total_cons (e : Str × Str) (es : List (Str × Str)) :
    total (e :: es) = e.1.length + e.2.length + total es := by
  simp [total, cost]

theorem total_append (es fs : List (Str × Str)) : total (es ++ fs) = total es + total fs := by
  simp [total]

theorem freed_eq {cur : Nat} {es : List (Str × Str)} (h : cur + total es < SIZE_MOD) :
    freed cur es = cur + total es := by
  induction es generalizing cur with
  | nil => simp [freed, total]
  | cons e es ih =>
    rw [total_cons] at h
    have h1 : uadd (size e.1) (size e.2) = e.1.length + e.2.length := cost_size (by omega)
    have h2 : uadd cur (e.1.length + e.2.length) = cur + (e.1.length + e.2.length) :=
      uadd_of_lt (by omega)
    have := @ih (cur + (e.1.length + e.2.length)) (by omega)
    simp only [freed, List.foldl_cons, h1, h2] at this ⊢
    rw [this, total_cons]
    omega

theorem total_take_le (es : List (Str × Str)) (n : Nat) : total (es.take n) ≤ total es := by
  conv_rhs => rw [← List.take_append_drop n es]
  rw [total_append]
  exact Nat.le_add_right _ _

/-! ## The iteration bound of the eviction loop -/

theorem filter_length_lt {idx : List (Str × Nat)} {k : Str}
    (h : (idx.lookup k).isNone = false) :
    (idx.filter (fun e => e.1 != k)).length < idx.length := by
  cases hl : idx.lookup k with
  | none => rw [hl] at h; cases h
  | some a =>
    have hm := lookup_mem hl
    have hsub : (idx.filter (fun e => e.1 != k)).Sublist idx := List.filter_sublist _
    rcases Nat.lt_or_ge (idx.filter (fun e => e.1 != k)).length idx.length with hlt | hge
    · exact hlt
    · have heq := hsub.eq_of_length_le hge
      have : (k, a) ∈ idx.filter (fun e => e.1 != k) := by rw [heq]; exact hm
      simp at this

/-- A successful `Delete` erases an index entry. -/
theorem delete_index_lt {s s1 : SimpleLRU} {k : Str} (h : s.Delete k = .ok (true, s1)) :
    s1._lru_index.length < s._lru_index.length := by
  unfold Delete at h
  simp only [bind, Except.bind, pure, Except.pure] at h
  repeat' split at h
  all_goals first
    | (cases h; done)
    | (cases h
       refine filter_length_lt ?_
       rw [← Bool.not_eq_true]
       assumption)

theorem load_error {h : Heap} {a : Nat} {e : Fault} (he : load h a = .error e) :
    e = Fault.danglingRef := by
  unfold load at he
  split at he <;> cases he
  rfl

theorem storeNext_error {h : Heap} {a : Nat} {v : Option Nat} {e : Fault}
    (he : storeNext h a v = .error e) : e = Fault.danglingRef := by
  unfold storeNext at he
  split at he <;> cases he
  rfl

theorem storePrev_error {h : Heap} {a : Nat} {v : Option Nat} {e : Fault}
    (he : storePrev h a v = .error e) : e = Fault.danglingRef := by
  unfold storePrev at he
  split at he <;> cases he
  rfl

/-- `Delete` has no loop: it never reports an exhausted iteration bound. -/
theorem delete_ne_fuel (s : SimpleLRU) (k : Str) : s.Delete k ≠ .error Fault.fuel := by
  intro h
  unfold Delete at h
  simp only [bind, Except.bind, pure, Except.pure] at h
  repeat' split at h
  all_goals first
    | (cases h; done)
    | (have hx := load_error (by assumption); cases hx; cases h)
    | (have hx := storeNext_error (by assumption); cases hx; cases h)
    | (have hx := storePrev_error (by assumption); cases hx; cases h)

/-- The iteration bound of the eviction loop is never reached: with more fuel
than index entries the loop ends by itself, in every state. -/
theorem loop_fuel (need : Nat) :
    ∀ (fuel : Nat) (s : SimpleLRU), s._lru_index.length < fuel →
      RemoveOldLoop need fuel s ≠ .error Fault.fuel := by
  intro fuel
  induction fuel with
  | zero => intro s h; cases h
  | succ f ih =>
    intro s hf
    unfold RemoveOldLoop
    split
    · simp only [bind, Except.bind, pure, Except.pure]
      cases hp : ptr s._lru_head with
      | error e => cases hh : s._lru_head <;> simp [ptr, hh] at hp; subst hp; simp
      | ok a =>
        simp only
        cases hl : load s.heap a with
        | error e => cases load_error hl; simp
        | ok node =>
          simp only
          cases hd : s.Delete node.key with
          | error e =>
            simp only
            intro h
            cases h
            exact delete_ne_fuel s node.key hd
          | ok r =>
            obtain ⟨b, s1⟩ := r
            cases b
            · simp
            · simp only [Bool.not_true, Bool.false_eq_true, if_false]
              apply ih
              have := delete_index_lt hd
              omega
    · simp [pure, Except.pure]

/-- `RemoveOldNodes` never runs out of iterations, in any state. -/
theorem removeOld_ne_fuel (need : Nat) (s : SimpleLRU) :
    s.RemoveOldNodes need ≠ .error Fault.fuel := by
  unfold RemoveOldNodes
  split
  · simp [pure, Except.pure]
  · exact loop_fuel need _ s (Nat.lt_succ_self _)

theorem rep_key_unique {s : SimpleLRU} {L1 L2 : List Cell} {a : Nat} {k v : Str}
    (hr : Rep s (L1 ++ (a, k, v) :: L2)) : ∀ y ∈ L1 ++ L2, y.2.1 ≠ k := by
  intro y hy hk
  have hna := (nodup_erase_mid hr.1).2 y hy
  have h1 := hr.2.2.2.2.2.1 y (by
    simp only [List.mem_append, List.mem_cons] at hy ⊢
    tauto)
  have h2 := hr.2.2.2.2.2.1 (a, k, v) (by simp)
  rw [hk] at h1
  simp only at h2
  rw [h1] at h2
  exact hna (by simpa using h2)

/-! ## Behaviour next to the defects -/

/-- What does hold of doomed requests: for a key the index does not hold, a
request whose cost exceeds `_max_size` is refused by `Put`, `PutIfAbsent` and
`Set` alike, in every state, and nothing changes. -/
theorem doomed_absent_rejected (s : SimpleLRU) (k v : Str) (habs : s.GetNode k = none)
    (hlen : k.length + v.length < SIZE_MOD) (hbig : s._max_size < k.length + v.length) :
    s.Put k v = .ok (false, s) ∧ s.PutIfAbsent k v = .ok (false, s) ∧
      s.Set k v = .ok (false, s) := by
  have h : s._max_size < uadd (size k) (size v) := by rw [cost_size hlen]; exact hbig
  exact ⟨by rw [put_absent v habs, putAnyway_big h],
    by rw [putIfAbsent_absent v habs, putAnyway_big h], set_absent v habs⟩

/-- What the code does with a shrinking update: in a structurally well-formed
store holding `k` with value `v0`, a `Set` to a shorter value is refused and
changes nothing (as long as `_max_size` plus the shrinkage stays below `2^64`). -/
theorem set_shrink_refused (s : SimpleLRU) (k v0 v : Str) (E1 E2 : List (Str × Str))
    (hwf : WF s) (hk : entries s = E1 ++ (k, v0) :: E2)
    (hshort : v.length < v0.length) (hv0 : v0.length < SIZE_MOD)
    (hmax : s._max_size + (v0.length - v.length) < SIZE_MOD) :
    s.Set k v = .ok (false, s) ∧ s.Put k v = .ok (false, s) := by
  have hr : Rep s (cells s) := hwf
  obtain ⟨L1, a, L2, hL, -, -⟩ := cells_split hk
  rw [hL] at hr
  have hg : s.GetNode k = some a := (rep_lookup hr k a).2 ⟨v0, by simp⟩
  have hbig : s._max_size < usub (size v) (size v0) := by
    have h1 : size v = v.length := size_of_lt (by omega)
    have h2 : size v0 = v0.length := size_of_lt hv0
    have h3 : v0.length % SIZE_MOD = v0.length := Nat.mod_eq_of_lt hv0
    have hpos : 0 < SIZE_MOD := by unfold SIZE_MOD; decide
    have h4 : (v.length + SIZE_MOD - v0.length) % SIZE_MOD = v.length + SIZE_MOD - v0.length :=
      Nat.mod_eq_of_lt (by omega)
    rw [h1, h2]
    unfold usub
    rw [h3, h4]
    omega
  have hset := set_big v hr hbig
  exact ⟨hset, by rw [put_present v hg, hset]⟩

/-- What does hold of a `Set` that returns true, in every reachable store: the
key is the last entry of the recency sequence, with the new value. -/
theorem set_true_post (s s1 : SimpleLRU) (k v : Str) (hs : Reachable s)
    (h : s.Set k v = .ok (true, s1)) : ∃ E, entries s1 = E ++ [(k, v)] := by
  obtain ⟨L, hr⟩ := reachable_rep hs
  cases hg : s.GetNode k with
  | none =>
    rw [set_absent v hg] at h
    cases h
  | some a =>
    obtain ⟨L1, v0, L2, rfl⟩ := mem_split_cell hr hg
    rcases set_cases hr h with ⟨hb, -⟩ | ⟨-, -, n, -, hr1, -⟩
    · cases hb
    · exact ⟨(L1.drop n ++ L2).map Prod.snd, by rw [entries_of_rep hr1]; simp⟩

/-! ## Further structure lemmas -/

theorem rep_nodup_cells {s : SimpleLRU} {L : List Cell} (hr : Rep s L) : L.Nodup :=
  List.Nodup.of_map Prod.fst hr.1

theorem rep_addr_inj {s : SimpleLRU} {L : List Cell} (hr : Rep s L) {x y : Cell}
    (hx : x ∈ L) (hy : y ∈ L) (e : x.1 = y.1) : x = y :=
  List.inj_on_of_nodup_map hr.1 hx hy e

theorem rep_keys_nodup {s : SimpleLRU} {L : List Cell} (hr : Rep s L) :
    (L.map (fun x => x.2.1)).Nodup := by
  refine List.Nodup.map_on ?_ (rep_nodup_cells hr)
  intro x hx y hy e
  have h1 := hr.2.2.2.2.2.1 x hx
  have h2 := hr.2.2.2.2.2.1 y hy
  simp only at e
  rw [e, h2] at h1
  exact (rep_addr_inj hr hx hy (by simpa using h1.symm))

theorem rep_index_mem {s : SimpleLRU} {L : List Cell} (hr : Rep s L) (k : Str) (a : Nat) :
    (k, a) ∈ s._lru_index ↔ ∃ v, (a, k, v) ∈ L := by
  rw [← rep_lookup hr k a]
  exact ⟨lookup_of_mem hr.2.2.2.2.2.2, lookup_mem⟩

theorem firstOr_eq_some {L : List Cell} {h : Nat} (e : firstOr L none = some h) :
    ∃ k v L1, L = (h, k, v) :: L1 := by
  cases L with
  | nil => cases e
  | cons x L1 =>
    obtain ⟨a, k, v⟩ := x
    simp only [firstOr_cons, Option.some.injEq] at e
    subst e
    exact ⟨k, v, L1, rfl⟩

theorem lastOr_eq_some {L : List Cell} {t : Nat} (e : lastOr none L = some t) :
    ∃ k v L1, L = L1 ++ [(t, k, v)] := by
  rcases List.eq_nil_or_concat L with rfl | ⟨L1, ⟨a, k, v⟩, rfl⟩
  · cases e
  · simp only [List.concat_eq_append, lastOr_append, lastOr_cons, lastOr_nil,
      Option.some.injEq] at e
    subst e
    exact ⟨k, v, L1, by simp⟩

/-- A run of the eviction loop that ends within its bound ends the same way
with one more iteration allowed. -/
theorem loop_mono_succ (need : Nat) :
    ∀ (fuel : Nat) (s : SimpleLRU) (r : Bool × SimpleLRU),
      RemoveOldLoop need fuel s = .ok r → RemoveOldLoop need (fuel + 1) s = .ok r := by
  intro fuel
  induction fuel with
  | zero =>
    intro s r h
    unfold RemoveOldLoop at h
    split at h
    · cases h
    · rename_i hc
      rw [RemoveOldLoop]
      simp only [hc, if_false]
      exact h
  | succ f ih =>
    intro s r h
    rw [RemoveOldLoop] at h ⊢
    split at h
    · rename_i hc
      simp only [hc, if_true]
      simp only [bind, Except.bind] at h ⊢
      cases hp : ptr s._lru_head with
      | error e => rw [hp] at h; cases h
      | ok a =>
        rw [hp] at h
        simp only at h ⊢
        cases hl : load s.heap a with
        | error e => rw [hl] at h; cases h
        | ok node =>
          rw [hl] at h
          simp only at h ⊢
          cases hd : s.Delete node.key with
          | error e => rw [hd] at h; cases h
          | ok r1 =>
            rw [hd] at h
            obtain ⟨b, s1⟩ := r1
            cases b
            · simpa using h
            · simp only [Bool.not_true, Bool.false_eq_true, if_false] at h ⊢
              exact ih s1 r h
    · rename_i hc
      simp only [hc, if_false]
      exact h

theorem loop_mono (need : Nat) {fuel fuel1 : Nat} (hle : fuel ≤ fuel1) {s : SimpleLRU}
    {r : Bool × SimpleLRU} (h : RemoveOldLoop need fuel s = .ok r) :
    RemoveOldLoop need fuel1 s = .ok r := by
  induction hle with
  | refl => exact h
  | step _ ih => exact loop_mono_succ need _ s r ih

theorem usub_of_le {a b : Nat} (hb : b ≤ a) (ha : a < SIZE_MOD) : usub a b = a - b := by
  unfold usub
  have hb1 : b % SIZE_MOD = b := Nat.mod_eq_of_lt (by omega)
  rw [hb1]
  have h1 : a + SIZE_MOD - b = (a - b) + SIZE_MOD := by omega
  rw [h1, Nat.add_mod_right]
  exact Nat.mod_eq_of_lt (by omega)

/-! ## Invariants along calls that return -/

/-- Put/Get round trip along calls that return.  In every store reached by public
calls that all returned, if `Put(k, v)` returns true then an immediately
following `Get(k)` returns true and yields exactly `v`, whether `k` was absent
or present before. -/
theorem round_trip_when_calls_return (s s1 : SimpleLRU) (k v out : Str)
    (hs : Reachable s) (hput : s.Put k v = .ok (true, s1)) :
    ∃ s2, s1.Get k out = .ok (true, v, s2) := by
  obtain ⟨L, hr⟩ := reachable_rep hs
  cases hg : s.GetNode k with
  | none =>
    rw [put_absent v hg] at hput
    rcases putAnyway_cases hr hg hput with ⟨hb, -⟩ | ⟨-, -, n, a, -, hr1, -⟩
    · cases hb
    · obtain ⟨s2, h2, -⟩ := get_rep out hr1
      exact ⟨s2, h2⟩
  | some a =>
    rw [put_present v hg] at hput
    obtain ⟨L1, v0, L2, rfl⟩ := mem_split_cell hr hg
    rcases set_cases hr hput with ⟨hb, -⟩ | ⟨-, -, n, -, hr1, -⟩
    · cases hb
    · obtain ⟨s2, h2, -⟩ := get_rep out hr1
      exact ⟨s2, h2⟩

/-- The round trip of scenario D: `Put("k","v")` on a fresh store of capacity 10,
then `Get("k")`. -/
theorem round_trip_when_calls_return_scenarioD :
    Reachable (SimpleLRU.init 10) ∧
      (SimpleLRU.init 10).Put ['k'] ['v'] = .ok (true, scenarioD) ∧
      ∃ s2, scenarioD.Get ['k'] [] = .ok (true, ['v'], s2) :=
  ⟨Reachable.init 10 (by decide), rfl,
    round_trip_when_calls_return (SimpleLRU.init 10) scenarioD ['k'] ['v'] []
      (Reachable.init 10 (by decide)) rfl⟩

/-- Lock-step of index and recency sequence along calls that return.  In every
store reached by public calls that all returned, the keys of `_lru_index` are exactly the keys of the nodes met from
`_lru_head` along `next`; each index entry refers to a node of the sequence
that carries the entry's key; no key occurs on two nodes of the sequence, no
key occurs twice in the index, and no node occurs twice in the sequence. -/
theorem lockstep_when_calls_return (s : SimpleLRU) (hs : Reachable s) :
    (∀ k, k ∈ s._lru_index.map Prod.fst ↔ k ∈ (entries s).map Prod.fst) ∧
    (∀ k a, (k, a) ∈ s._lru_index →
        a ∈ (cells s).map Prod.fst ∧ ∃ n, rd s.heap a = some n ∧ n.key = k) ∧
    ((entries s).map Prod.fst).Nodup ∧ (s._lru_index.map Prod.fst).Nodup ∧
    ((cells s).map Prod.fst).Nodup := by
  obtain ⟨L, hr⟩ := reachable_rep hs
  rw [entries_of_rep hr, cells_of_rep hr]
  refine ⟨?_, ?_, ?_, hr.2.2.2.2.2.2, hr.1⟩
  · intro k
    constructor
    · intro hk
      obtain ⟨e, he, rfl⟩ := List.mem_map.1 hk
      obtain ⟨v, hv⟩ := (rep_index_mem hr e.1 e.2).1 he
      exact List.mem_map.2 ⟨(e.1, v), List.mem_map.2 ⟨_, hv, rfl⟩, rfl⟩
    · intro hk
      obtain ⟨e, he, rfl⟩ := List.mem_map.1 hk
      obtain ⟨x, hx, rfl⟩ := List.mem_map.1 he
      obtain ⟨a, k, v⟩ := x
      exact List.mem_map.2 ⟨(k, a), (rep_index_mem hr k a).2 ⟨v, hx⟩, rfl⟩
  · intro k a hka
    obtain ⟨v, hv⟩ := (rep_index_mem hr k a).1 hka
    obtain ⟨n, hn, hkey, -⟩ := seg_mem hr.2.1 hv
    exact ⟨List.mem_map.2 ⟨_, hv, rfl⟩, n, hn, hkey⟩
  · have := rep_keys_nodup hr
    simpa [List.map_map, Function.comp_def] using this

/-- Scenario E, reached by two calls of `Put`: the index and the sequence hold
the keys `a` and `c`. -/
theorem lockstep_when_calls_return_scenarioE :
    Reachable scenarioE ∧
      (∀ k, k ∈ scenarioE._lru_index.map Prod.fst ↔ k ∈ (entries scenarioE).map Prod.fst) ∧
      (∀ k a, (k, a) ∈ scenarioE._lru_index →
          a ∈ (cells scenarioE).map Prod.fst ∧ ∃ n, rd scenarioE.heap a = some n ∧ n.key = k) ∧
      ((entries scenarioE).map Prod.fst).Nodup ∧ (scenarioE._lru_index.map Prod.fst).Nodup ∧
      ((cells scenarioE).map Prod.fst).Nodup :=
  ⟨Reachable.Put ['c'] ['d'] true
      (Reachable.Put ['a'] ['b'] true (Reachable.init 4 (by decide)) rfl) rfl,
    lockstep_when_calls_return scenarioE
      (Reachable.Put ['c'] ['d'] true
        (Reachable.Put ['a'] ['b'] true (Reachable.init 4 (by decide)) rfl) rfl)⟩

/-- The recency sequence along calls that return.  In every store reached by
public calls that all returned, following `next` from `_lru_head` meets no node twice and ends
at `_lru_tail`, whose `next` is null; `_lru_head` has no `prev`; and whenever a
node of the sequence has a successor, the successor is a live node of the
sequence whose `prev` points back to it. -/
theorem doubly_linked_when_calls_return (s : SimpleLRU) (hs : Reachable s) :
    ((cells s).map Prod.fst).Nodup ∧
    s._lru_head = firstOr (cells s) none ∧ s._lru_tail = lastOr none (cells s) ∧
    (∀ h, s._lru_head = some h → ∃ n, rd s.heap h = some n ∧ n.prev = none) ∧
    (∀ t, s._lru_tail = some t → ∃ n, rd s.heap t = some n ∧ n.next = none) ∧
    (∀ a ∈ (cells s).map Prod.fst, ∀ n m, rd s.heap a = some n → n.next = some m →
        m ∈ (cells s).map Prod.fst ∧ ∃ mn, rd s.heap m = some mn ∧ mn.prev = some a) := by
  obtain ⟨L, hr⟩ := reachable_rep hs
  rw [cells_of_rep hr]
  refine ⟨hr.1, hr.2.2.1, hr.2.2.2.1, ?_, ?_, ?_⟩
  · intro h hh
    rw [hr.2.2.1] at hh
    obtain ⟨k, v, L1, rfl⟩ := firstOr_eq_some hh
    exact ⟨_, hr.2.1.1, rfl⟩
  · intro t ht
    rw [hr.2.2.2.1] at ht
    obtain ⟨k, v, L1, rfl⟩ := lastOr_eq_some ht
    exact ⟨_, rep_node hr, rfl⟩
  · intro a ha n m hn hm
    obtain ⟨x, hx, rfl⟩ := List.mem_map.1 ha
    obtain ⟨L1, L2, rfl⟩ := List.append_of_mem hx
    obtain ⟨a, k, v⟩ := x
    have hnode := rep_node hr
    simp only at hn
    rw [hnode] at hn
    cases hn
    simp only at hm
    obtain ⟨km, vm, L3, rfl⟩ := firstOr_eq_some hm
    have hr2 : Rep s ((L1 ++ [(a, k, v)]) ++ (m, km, vm) :: L3) := by simpa using hr
    have hm2 := rep_node hr2
    refine ⟨by simp, _, hm2, ?_⟩
    simp [lastOr_append]

/-- Scenario E, reached by two calls of `Put`: the list is `a`, `c`. -/
theorem doubly_linked_when_calls_return_scenarioE :
    Reachable scenarioE ∧ cells scenarioE = [(0, ['a'], ['b']), (1, ['c'], ['d'])] ∧
      ((cells scenarioE).map Prod.fst).Nodup ∧
      scenarioE._lru_head = firstOr (cells scenarioE) none ∧
      scenarioE._lru_tail = lastOr none (cells scenarioE) ∧
      (∀ h, scenarioE._lru_head = some h → ∃ n, rd scenarioE.heap h = some n ∧ n.prev = none) ∧
      (∀ t, scenarioE._lru_tail = some t → ∃ n, rd scenarioE.heap t = some n ∧ n.next = none) ∧
      (∀ a ∈ (cells scenarioE).map Prod.fst, ∀ n m, rd scenarioE.heap a = some n →
          n.next = some m →
          m ∈ (cells scenarioE).map Prod.fst ∧
            ∃ mn, rd scenarioE.heap m = some mn ∧ mn.prev = some a) :=
  ⟨Reachable.Put ['c'] ['d'] true
      (Reachable.Put ['a'] ['b'] true (Reachable.init 4 (by decide)) rfl) rfl,
    rfl,
    doubly_linked_when_calls_return scenarioE
      (Reachable.Put ['c'] ['d'] true
        (Reachable.Put ['a'] ['b'] true (Reachable.init 4 (by decide)) rfl) rfl)⟩

/-- Head, tail and index along calls that return.  In every store reached by
public calls that all returned,
`_lru_head` is null exactly when `_lru_tail` is null, exactly when `_lru_index`
is empty; so whenever the guard of the eviction loop sees a non-null
`_lru_tail`, `_lru_head` points to a live node and the index holds that node's
key, mapped to that very node. -/
theorem emptiness_agrees_when_calls_return (s : SimpleLRU) (hs : Reachable s) :
    (s._lru_head = none ↔ s._lru_tail = none) ∧
    (s._lru_tail = none ↔ s._lru_index = []) ∧
    (∀ t, s._lru_tail = some t →
        ∃ h n, s._lru_head = some h ∧ rd s.heap h = some n ∧ s.GetNode n.key = some h) := by
  obtain ⟨L, hr⟩ := reachable_rep hs
  obtain ⟨hnd, hseg, hhead, htail, hsnd, hcmp, hind⟩ := hr
  cases L with
  | nil =>
    have hidx : s._lru_index = [] := by
      cases hi : s._lru_index with
      | nil => rfl
      | cons e idx =>
        have := hsnd e (by rw [hi]; simp)
        simp at this
    simp only [firstOr_nil] at hhead
    simp only [lastOr_nil] at htail
    refine ⟨by simp [hhead, htail], by simp [htail, hidx], ?_⟩
    intro t ht
    rw [htail] at ht
    cases ht
  | cons x L1 =>
    obtain ⟨a, k, v⟩ := x
    have hx := hcmp (a, k, v) (by simp)
    simp only at hx
    have hne : s._lru_index ≠ [] := by
      intro e
      rw [e] at hx
      cases hx
    have htl : s._lru_tail ≠ none := by
      intro e
      have := lastOr_isSome a L1
      rw [lastOr_cons] at htail
      rw [← htail, e] at this
      cases this
    simp only [firstOr_cons] at hhead
    refine ⟨by simp [hhead, htl], by simp [htl, hne], ?_⟩
    intro t _
    exact ⟨a, _, hhead, hseg.1, hx⟩

/-- Scenario E, reached by two calls of `Put`: head, tail and index are all
non-empty, and the head's key `a` is indexed. -/
theorem emptiness_agrees_when_calls_return_scenarioE :
    Reachable scenarioE ∧
      (scenarioE._lru_head = none ↔ scenarioE._lru_tail = none) ∧
      (scenarioE._lru_tail = none ↔ scenarioE._lru_index = []) ∧
      (∀ t, scenarioE._lru_tail = some t →
          ∃ h n, scenarioE._lru_head = some h ∧ rd scenarioE.heap h = some n ∧
            scenarioE.GetNode n.key = some h) :=
  ⟨Reachable.Put ['c'] ['d'] true
      (Reachable.Put ['a'] ['b'] true (Reachable.init 4 (by decide)) rfl) rfl,
    emptiness_agrees_when_calls_return scenarioE
      (Reachable.Put ['c'] ['d'] true
        (Reachable.Put ['a'] ['b'] true (Reachable.init 4 (by decide)) rfl) rfl)⟩

/-! ## The claims -/

/-- Claim C1: the capacity invariant fails in the code.  With capacity 3,
`Put("a","1")`, `Set("a","12")`, `Set("a","123")` all return true and leave the
entry `a -> 123` of cost 4 in the store: `Set` adds the size delta to the free
budget `_cur_size` instead of subtracting it, so the budget never runs out. -/
theorem C1_capacity_exceeded_after_growing_set :
    ∃ s1 s2 s3, (SimpleLRU.init 3).Put ['a'] ['1'] = .ok (true, s1) ∧
      s1.Set ['a'] ['1', '2'] = .ok (true, s2) ∧
      s2.Set ['a'] ['1', '2', '3'] = .ok (true, s3) ∧
      entries s3 = [(['a'], ['1', '2', '3'])] ∧
      s3._max_size < total (entries s3) :=
  ⟨_, _, _, rfl, rfl, rfl, rfl, by decide⟩

/-- Claim C2: a doomed update is not rejected up front.  `Set` checks only the
size delta against `_max_size`.  With capacity 5, after `Put("x","1")` and
`Set("x","1234")`, the call `Set("x","12345")` (cost 6 > 5) returns true and
stores the value.  With capacity 5, after `Put("x","1")` and `Put("y","2")`, the
call `Put("y","23456")` (cost 6 > 5) has its eviction loop remove both entries
and then uses the reference to the destroyed node. -/
theorem C2_doomed_update_not_rejected :
    (∃ s1 s2 s3, (SimpleLRU.init 5).Put ['x'] ['1'] = .ok (true, s1) ∧
      s1.Set ['x'] ['1', '2', '3', '4'] = .ok (true, s2) ∧
      s2._max_size < ['x'].length + ['1', '2', '3', '4', '5'].length ∧
      s2.Set ['x'] ['1', '2', '3', '4', '5'] = .ok (true, s3) ∧
      entries s3 = [(['x'], ['1', '2', '3', '4', '5'])]) ∧
    (∃ t1 t2 t3, (SimpleLRU.init 5).Put ['x'] ['1'] = .ok (true, t1) ∧
      t1.Put ['y'] ['2'] = .ok (true, t2) ∧
      t2._max_size < ['y'].length + ['2', '3', '4', '5', '6'].length ∧
      t2.RemoveOldNodes (usub (size ['2', '3', '4', '5', '6']) (size ['2'])) = .ok (true, t3) ∧
      entries t3 = [] ∧
      t2.Put ['y'] ['2', '3', '4', '5', '6'] = .error Fault.danglingRef) :=
  ⟨⟨_, _, _, rfl, rfl, by decide, rfl, rfl⟩, ⟨_, _, _, rfl, rfl, by decide, rfl, rfl, rfl⟩⟩

/-- Claim C3: `Put` fails although the entry fits.  With capacity 10, after
`Put("k","vv")` the call `Put("k","v")` (cost 2) returns false and changes
nothing: the delta `1 - 2` wraps around to `2^64 - 1`, which exceeds
`_max_size`. -/
theorem C3_put_shrinking_value_fails :
    ∃ s1, (SimpleLRU.init 10).Put ['k'] ['v', 'v'] = .ok (true, s1) ∧
      ['k'].length + ['v'].length ≤ s1._max_size ∧
      s1.Put ['k'] ['v'] = .ok (false, s1) ∧
      entries s1 = [(['k'], ['v', 'v'])] :=
  ⟨_, rfl, by decide, rfl, rfl⟩

/-- Claim C4: a shrinking `Set` fails.  With capacity 10, after
`Put("key","value")` the call `Set("key","val")` returns false and the value
stays `value`: the requested size `3 - 5` is `2^64 - 2` in `size_t`
arithmetic, and `RemoveOldNodes` rejects it as larger than `_max_size`. -/
theorem C4_set_shrinking_value_fails :
    ∃ s1, (SimpleLRU.init 10).Put ['k', 'e', 'y'] ['v', 'a', 'l', 'u', 'e'] = .ok (true, s1) ∧
      usub (size ['v', 'a', 'l']) (size ['v', 'a', 'l', 'u', 'e']) = 2 ^ 64 - 2 ∧
      s1.RemoveOldNodes (2 ^ 64 - 2) = .ok (false, s1) ∧
      s1.Set ['k', 'e', 'y'] ['v', 'a', 'l'] = .ok (false, s1) ∧
      entries s1 = [(['k', 'e', 'y'], ['v', 'a', 'l', 'u', 'e'])] :=
  ⟨_, rfl, by decide, rfl, rfl, rfl⟩

/-- Claim C5: `Set` evicts the key it is updating.  With capacity 4, after
`Put("a","1")` and `Put("b","2")` the budget is 0 and `a` is the LRU head;
`Set("a","12")` needs one byte, its eviction loop deletes `a` itself, and the
call then reads and writes the destroyed node. -/
theorem C5_set_evicts_its_own_key :
    ∃ s1 s2 s3, (SimpleLRU.init 4).Put ['a'] ['1'] = .ok (true, s1) ∧
      s1.Put ['b'] ['2'] = .ok (true, s2) ∧
      entries s2 = [(['a'], ['1']), (['b'], ['2'])] ∧
      s2.RemoveOldNodes (usub (size ['1', '2']) (size ['1'])) = .ok (true, s3) ∧
      entries s3 = [(['b'], ['2'])] ∧ s3.GetNode ['a'] = none ∧
      s2.Set ['a'] ['1', '2'] = .error Fault.danglingRef :=
  ⟨_, _, _, rfl, rfl, rfl, rfl, rfl, rfl, rfl⟩

/-- Claim C6: the round trip fails in the code when `Put` evicts the key it
updates.  With capacity 5, after `Put("y","2")` the call `Put("y","23456")`
finds `y` and goes through `Set`: the delta 4 passes the guard, the eviction
loop deletes the only entry, `y` itself, and returns true; the rest of the call
works on the destroyed node.  The store the eviction leaves holds no `y`, so a
`Get("y")` on it returns false. -/
theorem C6_put_evicts_key_then_get_fails :
    ∃ s1 s2, (SimpleLRU.init 5).Put ['y'] ['2'] = .ok (true, s1) ∧
      s1.GetNode ['y'] = some 0 ∧
      s1.RemoveOldNodes (usub (size ['2', '3', '4', '5', '6']) (size ['2'])) = .ok (true, s2) ∧
      entries s2 = [] ∧ s2.GetNode ['y'] = none ∧ rd s2.heap 0 = none ∧
      s1.Put ['y'] ['2', '3', '4', '5', '6'] = .error Fault.danglingRef ∧
      s2.Get ['y'] [] = .ok (false, [], s2) :=
  ⟨_, _, rfl, rfl, rfl, rfl, rfl, rfl, rfl, rfl⟩

/-- Claim C7: eviction minimality in LRU order.  In a well-formed store with exact
budget, inserting an absent key whose cost `need = len(k) + len(v)` fits
`max_capacity` succeeds (through `Put` and through `PutIfAbsent` alike) and
removes exactly the first `n` entries of the recency sequence, where `n` is the
least number whose removal brings the free budget to at least `need`: the
remaining entries are kept in order and the new entry is appended. -/
theorem C7_eviction_minimal (s : SimpleLRU) (k v : Str)
    (hwf : WF s) (hb : Budget s) (habs : s.GetNode k = none)
    (hfit : k.length + v.length ≤ s._max_size) :
    ∃ n s1, s.Put k v = .ok (true, s1) ∧ s.PutIfAbsent k v = .ok (true, s1) ∧
      n ≤ (entries s).length ∧
      entries s1 = (entries s).drop n ++ [(k, v)] ∧
      k.length + v.length ≤ s._cur_size + total ((entries s).take n) ∧
      ∀ m, m < n → s._cur_size + total ((entries s).take m) < k.length + v.length := by
  have hr : Rep s (cells s) := hwf
  obtain ⟨hmax, hbud⟩ := hb
  have hcost : uadd (size k) (size v) = k.length + v.length := cost_size (by omega)
  have hfreed : ∀ m, freed s._cur_size (((cells s).take m).map Prod.snd)
      = s._cur_size + total ((entries s).take m) := by
    intro m
    have : ((cells s).take m).map Prod.snd = (entries s).take m := by
      simp [entries, List.map_take]
    rw [this]
    apply freed_eq
    have := total_take_le (entries s) m
    omega
  obtain ⟨n, a, s1, h1, hn, hr1, -, -, hmin, hstop⟩ :=
    putAnyway_rep (v := v) hr habs (by rw [hcost]; exact hfit)
  refine ⟨n, s1, by rw [put_absent v habs, h1], by rw [putIfAbsent_absent v habs, h1],
    by simpa [entries] using hn, ?_, ?_, ?_⟩
  · rw [entries_of_rep hr1]
    simp [entries, List.map_drop]
  · by_cases hlt : n < (cells s).length
    · have := hstop hlt
      rwa [hcost, hfreed] at this
    · have hall : (entries s).take n = entries s := by
        apply List.take_of_length_le
        simp only [entries, List.length_map]
        omega
      rw [hall]
      omega
  · intro m hm
    have := hmin m hm
    rwa [hcost, hfreed] at this

/-- Scenario A: inserting `ccc -> 3333` (cost 7) into the store holding `a -> 1` and
`bb -> 22` with free budget 4. -/
theorem C7_eviction_minimal_witness :
    (∃ s0, (SimpleLRU.init 10).Put ['a'] ['1'] = .ok (true, s0) ∧
      s0.Put ['b', 'b'] ['2', '2'] = .ok (true, scenarioA)) ∧
    WF scenarioA ∧ Budget scenarioA ∧ scenarioA.GetNode ['c', 'c', 'c'] = none ∧
      ['c', 'c', 'c'].length + ['3', '3', '3', '3'].length ≤ scenarioA._max_size ∧
      ∃ n s1, scenarioA.Put ['c', 'c', 'c'] ['3', '3', '3', '3'] = .ok (true, s1) ∧
        scenarioA.PutIfAbsent ['c', 'c', 'c'] ['3', '3', '3', '3'] = .ok (true, s1) ∧
        n ≤ (entries scenarioA).length ∧
        entries s1 = (entries scenarioA).drop n ++ [(['c', 'c', 'c'], ['3', '3', '3', '3'])] ∧
        ['c', 'c', 'c'].length + ['3', '3', '3', '3'].length
          ≤ scenarioA._cur_size + total ((entries scenarioA).take n) ∧
        ∀ m, m < n → scenarioA._cur_size + total ((entries scenarioA).take m)
          < ['c', 'c', 'c'].length + ['3', '3', '3', '3'].length :=
  ⟨⟨_, rfl, rfl⟩, by decide, by decide, rfl, by decide,
    C7_eviction_minimal scenarioA ['c', 'c', 'c'] ['3', '3', '3', '3']
      (by decide) (by decide) rfl (by decide)⟩

/-- Claim C8: Get contract.  In a well-formed store whose recency sequence is
`E1 ++ (k, v) :: E2`, `Get(k)` returns true with output `v`; the new sequence is
`E1 ++ E2 ++ [(k, v)]` (the entry moved to the MRU end, every other entry in its
old relative order with its old value), the free budget is unchanged, and the
whole store is unchanged when `k` was already the MRU entry. -/
theorem C8_get_contract (s : SimpleLRU) (k v out : Str) (E1 E2 : List (Str × Str))
    (hwf : WF s) (hk : entries s = E1 ++ (k, v) :: E2) :
    ∃ s1, s.Get k out = .ok (true, v, s1) ∧ entries s1 = E1 ++ E2 ++ [(k, v)] ∧
      s1._cur_size = s._cur_size ∧ s1._max_size = s._max_size ∧ WF s1 ∧
      (E2 = [] → s1 = s) := by
  have hr : Rep s (cells s) := hwf
  obtain ⟨L1, a, L2, hL, rfl, rfl⟩ := cells_split hk
  rw [hL] at hr
  obtain ⟨s1, h1, hr1, hc, hm, -, hsame⟩ := get_rep out hr
  refine ⟨s1, h1, ?_, hc, hm, wf_of_rep hr1, ?_⟩
  · rw [entries_of_rep hr1]; simp
  · intro h
    exact hsame (List.map_eq_nil_iff.1 h)

/-- Scenario E: `Get("a")` on the store holding `a -> b`, then `c -> d`. -/
theorem C8_get_contract_witness :
    (∃ s0, (SimpleLRU.init 4).Put ['a'] ['b'] = .ok (true, s0) ∧
      s0.Put ['c'] ['d'] = .ok (true, scenarioE)) ∧
    WF scenarioE ∧ entries scenarioE = [] ++ (['a'], ['b']) :: [(['c'], ['d'])] ∧
      ∃ s1, scenarioE.Get ['a'] [] = .ok (true, ['b'], s1) ∧
        entries s1 = [] ++ [(['c'], ['d'])] ++ [(['a'], ['b'])] ∧
        s1._cur_size = scenarioE._cur_size ∧ s1._max_size = scenarioE._max_size ∧ WF s1 ∧
        ([(['c'], ['d'])] = [] → s1 = scenarioE) :=
  ⟨⟨_, rfl, rfl⟩, by decide, rfl,
    C8_get_contract scenarioE ['a'] ['b'] [] [] [(['c'], ['d'])] (by decide) rfl⟩

/-- Claim C9: a touched key is protected from eviction.  In a well-formed store, after a
successful `Get(k)` a successful `Put` of an absent key either keeps `k` (with
its value) or leaves the new entry as the only one: `k` is evicted only
together with every other entry that was present.  (No lower bound on the
number of entries is needed.) -/
theorem C9_touched_key_protected (s s1 s2 : SimpleLRU) (k v out k2 v2 : Str)
    (hwf : WF s) (hget : s.Get k out = .ok (true, v, s1))
    (habs : s1.GetNode k2 = none) (hput : s1.Put k2 v2 = .ok (true, s2)) :
    (k, v) ∈ entries s2 ∨ entries s2 = [(k2, v2)] := by
  have hr : Rep s (cells s) := hwf
  cases hg : s.GetNode k with
  | none =>
    rw [get_absent out hg] at hget
    cases hget
  | some a =>
    obtain ⟨L1, v0, L2, hL⟩ := mem_split_cell hr hg
    rw [hL] at hr
    obtain ⟨s1a, h1, hr1, -⟩ := get_rep out hr
    rw [h1] at hget
    cases hget
    rw [put_absent v2 habs] at hput
    rcases putAnyway_cases hr1 habs hput with ⟨hb, -⟩ | ⟨-, -, n, a2, -, hr2, -⟩
    · cases hb
    · rw [entries_of_rep hr2]
      by_cases hn : n ≤ (L1 ++ L2).length
      · left
        rw [List.drop_append_of_le_length hn]
        simp
      · right
        have : (L1 ++ L2 ++ [(a, k, v)]).drop n = [] := by
          apply List.drop_eq_nil_of_le
          simp only [List.length_append, List.length_singleton] at hn ⊢
          omega
        rw [this]
        rfl

/-- Scenario E: after `Get("a")`, `Put("e","f")` evicts `c` and keeps `a`. -/
theorem C9_touched_key_protected_witness :
    ∃ s1 s2, WF scenarioE ∧ scenarioE.Get ['a'] [] = .ok (true, ['b'], s1) ∧
      s1.GetNode ['e'] = none ∧ s1.Put ['e'] ['f'] = .ok (true, s2) ∧
      entries s2 = [(['a'], ['b']), (['e'], ['f'])] ∧
      ((['a'], ['b']) ∈ entries s2 ∨ entries s2 = [(['e'], ['f'])]) :=
  ⟨_, _, by decide, rfl, rfl, rfl, rfl,
    C9_touched_key_protected scenarioE _ _ ['a'] ['b'] [] ['e'] ['f'] (by decide) rfl rfl rfl⟩

/-- Claim C10: Delete contract.  In a well-formed store with exact budget whose recency
sequence is `E1 ++ (k, v) :: E2`, `Delete(k)` returns true; afterwards the
sequence is `E1 ++ E2` (all other entries, same values, same order), `k` is in
neither the index nor the sequence, the free budget has grown by exactly
`len(k) + len(v)`, the store is still well formed, and a following `Get(k)` and
a second `Delete(k)` both return false. -/
theorem C10_delete_contract (s : SimpleLRU) (k v : Str) (E1 E2 : List (Str × Str))
    (hwf : WF s) (hb : Budget s) (hk : entries s = E1 ++ (k, v) :: E2) :
    ∃ s1, s.Delete k = .ok (true, s1) ∧ entries s1 = E1 ++ E2 ∧ s1.GetNode k = none ∧
      (∀ e ∈ entries s1, e.1 ≠ k) ∧
      s1._cur_size = s._cur_size + (k.length + v.length) ∧ WF s1 ∧ Budget s1 ∧
      (∀ out, s1.Get k out = .ok (false, out, s1)) ∧ s1.Delete k = .ok (false, s1) := by
  have hr : Rep s (cells s) := hwf
  obtain ⟨hmax, hbud⟩ := hb
  rw [hk, total_append, total_cons] at hbud
  simp only at hbud
  obtain ⟨L1, a, L2, hL, rfl, rfl⟩ := cells_split hk
  rw [hL] at hr
  obtain ⟨s1, h1, hr1, hc, hm, -, -⟩ := delete_rep hr
  have hkey := rep_key_unique hr
  have hgone : s1.GetNode k = none := (rep_absent hr1 k).2 hkey
  have hent : entries s1 = L1.map Prod.snd ++ L2.map Prod.snd := by
    rw [entries_of_rep hr1]; simp
  have hcur : s1._cur_size = s._cur_size + (k.length + v.length) := by
    rw [hc, cost_size (by omega), uadd_of_lt (by omega)]
  refine ⟨s1, h1, hent, hgone, ?_, hcur, wf_of_rep hr1, ⟨by rw [hm]; exact hmax, ?_⟩,
    fun out => get_absent out hgone, delete_absent hgone⟩
  · intro e he
    rw [entries_of_rep hr1] at he
    obtain ⟨y, hy, rfl⟩ := List.mem_map.1 he
    exact hkey y hy
  · rw [hent, total_append, hcur, hm]
    omega

/-- Scenario D: `Delete("k")` on the store holding only `k -> v`. -/
theorem C10_delete_contract_witness :
    WF scenarioD ∧ Budget scenarioD ∧ entries scenarioD = [] ++ (['k'], ['v']) :: [] ∧
      ∃ s1, scenarioD.Delete ['k'] = .ok (true, s1) ∧ entries s1 = [] ++ [] ∧
        s1.GetNode ['k'] = none ∧ (∀ e ∈ entries s1, e.1 ≠ ['k']) ∧
        s1._cur_size = scenarioD._cur_size + (['k'].length + ['v'].length) ∧ WF s1 ∧
        Budget s1 ∧ (∀ out, s1.Get ['k'] out = .ok (false, out, s1)) ∧
        s1.Delete ['k'] = .ok (false, s1) :=
  ⟨by decide, by decide, rfl,
    C10_delete_contract scenarioD ['k'] ['v'] [] [] (by decide) (by decide) rfl⟩

/-- Claim C11: NotFound leaves the store untouched.  In every store, for every
key the index does not hold, `Set` (for any value), `Get` and `Delete` each
return false and leave the store exactly as it was; `Get` also leaves the
caller's output string as it was. -/
theorem C11_not_found_no_change (s : SimpleLRU) (k v out : Str)
    (habs : s.GetNode k = none) :
    s.Set k v = .ok (false, s) ∧ s.Get k out = .ok (false, out, s) ∧
      s.Delete k = .ok (false, s) :=
  ⟨set_absent v habs, get_absent out habs, delete_absent habs⟩

/-- Scenario D: `Set`, `Get` and `Delete` of the missing key `z` on the store
holding only `k -> v`. -/
theorem C11_not_found_no_change_witness :
    scenarioD.GetNode ['z'] = none ∧
      scenarioD.Set ['z'] ['1'] = .ok (false, scenarioD) ∧
      scenarioD.Get ['z'] [] = .ok (false, [], scenarioD) ∧
      scenarioD.Delete ['z'] = .ok (false, scenarioD) :=
  ⟨rfl, C11_not_found_no_change scenarioD ['z'] ['1'] [] rfl⟩

/-- Claim C12: PutIfAbsent on an existing key is a failing no-op.  In a
well-formed store whose recency sequence is `E1 ++ (k, v1) :: E2`,
`PutIfAbsent(k, v2)` returns false and leaves the store exactly as it was, so a
following `Get(k)` returns true and yields `v1`. -/
theorem C12_put_if_absent_existing (s : SimpleLRU) (k v1 v2 out : Str)
    (E1 E2 : List (Str × Str)) (hwf : WF s) (hk : entries s = E1 ++ (k, v1) :: E2) :
    s.PutIfAbsent k v2 = .ok (false, s) ∧ ∃ s1, s.Get k out = .ok (true, v1, s1) := by
  have hr : Rep s (cells s) := hwf
  obtain ⟨L1, a, L2, hL, -, -⟩ := cells_split hk
  rw [hL] at hr
  have hg : s.GetNode k = some a := (rep_lookup hr k a).2 ⟨v1, by simp⟩
  obtain ⟨s1, h1, -⟩ := get_rep out hr
  exact ⟨putIfAbsent_present v2 hg, s1, h1⟩

/-- Scenario C: `PutIfAbsent("k","v2")` on the store holding `k -> v`. -/
theorem C12_put_if_absent_existing_witness :
    WF scenarioD ∧ entries scenarioD = [] ++ (['k'], ['v']) :: [] ∧
      scenarioD.PutIfAbsent ['k'] ['v', '2'] = .ok (false, scenarioD) ∧
      ∃ s1, scenarioD.Get ['k'] [] = .ok (true, ['v'], s1) :=
  ⟨by decide, rfl,
    C12_put_if_absent_existing scenarioD ['k'] ['v'] ['v', '2'] [] [] [] (by decide) rfl⟩

/-- Claim C13: the lock-step of index and sequence is not kept by every call.
With capacity 4, after `Put("a","1")` and `Put("b","2")` the index maps `a` to
node 0 and `b` to node 1.  `Set("a","12")` takes the reference to node 0, its
eviction loop erases `a` from the index and destroys node 0, and the call goes
on to write and relink that node, which is in neither view any more. -/
theorem C13_set_works_on_unindexed_node :
    ∃ s1 s2 s3, (SimpleLRU.init 4).Put ['a'] ['1'] = .ok (true, s1) ∧
      s1.Put ['b'] ['2'] = .ok (true, s2) ∧
      s2._lru_index = [(['b'], 1), (['a'], 0)] ∧
      cells s2 = [(0, ['a'], ['1']), (1, ['b'], ['2'])] ∧
      s2.RemoveOldNodes (usub (size ['1', '2']) (size ['1'])) = .ok (true, s3) ∧
      s3._lru_index = [(['b'], 1)] ∧ cells s3 = [(1, ['b'], ['2'])] ∧
      rd s3.heap 0 = none ∧
      s2.Set ['a'] ['1', '2'] = .error Fault.danglingRef :=
  ⟨_, _, _, rfl, rfl, rfl, rfl, rfl, rfl, rfl, rfl, rfl⟩

/-- Claim C14: idempotence of touch.  In a well-formed store holding `k` with value
`v`, `Get(k)` returns `v`, and a second `Get(k)` right after returns `v` again
and leaves the store exactly as the first call left it. -/
theorem C14_get_twice (s : SimpleLRU) (k v out out2 : Str) (E1 E2 : List (Str × Str))
    (hwf : WF s) (hk : entries s = E1 ++ (k, v) :: E2) :
    ∃ s1, s.Get k out = .ok (true, v, s1) ∧ s1.Get k out2 = .ok (true, v, s1) := by
  have hr : Rep s (cells s) := hwf
  obtain ⟨L1, a, L2, hL, -, -⟩ := cells_split hk
  rw [hL] at hr
  obtain ⟨s1, h1, hr1, -⟩ := get_rep out hr
  obtain ⟨s2, h2, -, -, -, -, hsame⟩ := get_rep out2 hr1
  rw [hsame rfl] at h2
  exact ⟨s1, h1, h2⟩

/-- Scenario E: `Get("a")` twice on the store holding `a -> b`, then `c -> d`. -/
theorem C14_get_twice_witness :
    WF scenarioE ∧ entries scenarioE = [] ++ (['a'], ['b']) :: [(['c'], ['d'])] ∧
      ∃ s1, scenarioE.Get ['a'] [] = .ok (true, ['b'], s1) ∧
        s1.Get ['a'] [] = .ok (true, ['b'], s1) :=
  ⟨by decide, rfl,
    C14_get_twice scenarioE ['a'] ['b'] [] [] [] [(['c'], ['d'])] (by decide) rfl⟩

/-- Claim C15: the free-budget bookkeeping is not exact in the code.  With
capacity 10, `Put("a","1")` leaves free budget 8; `Set("a","12")` grows the
value by one byte, returns true and leaves free budget 9, while capacity minus
the cost of the present entries is 7: `Set` adds the size delta to the free
budget instead of subtracting it. -/
theorem C15_growing_set_raises_budget :
    ∃ s1 s2, (SimpleLRU.init 10).Put ['a'] ['1'] = .ok (true, s1) ∧
      s1._cur_size = 8 ∧ s1._max_size - total (entries s1) = 8 ∧
      s1.Set ['a'] ['1', '2'] = .ok (true, s2) ∧
      entries s2 = [(['a'], ['1', '2'])] ∧
      s2._cur_size = 9 ∧ s2._max_size - total (entries s2) = 7 :=
  ⟨_, _, rfl, rfl, by decide, rfl, rfl, rfl, by decide⟩

/-- Claim C16: the list is not kept well formed by every call.  With capacity 4,
after `Put("a","1")` and `Put("b","2")` the list is node 0, node 1.
`Set("a","12")` evicts node 0, which leaves the one-node list of node 1 and
destroys node 0; the call then hands the destroyed node to `RearrangeToTail`,
whose relinking starts from that node's `next`. -/
theorem C16_set_relinks_destroyed_node :
    ∃ s1 s2 s3, (SimpleLRU.init 4).Put ['a'] ['1'] = .ok (true, s1) ∧
      s1.Put ['b'] ['2'] = .ok (true, s2) ∧
      s2._lru_head = some 0 ∧ s2._lru_tail = some 1 ∧
      rd s2.heap 0 = some { key := ['a'], value := ['1'], prev := none, next := some 1 } ∧
      s2.RemoveOldNodes (usub (size ['1', '2']) (size ['1'])) = .ok (true, s3) ∧
      s3._lru_head = some 1 ∧ s3._lru_tail = some 1 ∧
      rd s3.heap 1 = some { key := ['b'], value := ['2'], prev := none, next := none } ∧
      rd s3.heap 0 = none ∧
      s3.RearrangeToTail 0 = .error Fault.danglingRef ∧
      s2.Set ['a'] ['1', '2'] = .error Fault.danglingRef :=
  ⟨_, _, _, rfl, rfl, rfl, rfl, rfl, rfl, rfl, rfl, rfl, rfl, rfl, rfl⟩

/-- Claim C17: the eviction loop terminates.  In a well-formed store with `n`
entries: a request larger than `_max_size` is refused and evicts nothing;
otherwise `n` iterations are enough for the loop to end, it returns true
having removed the first `m <= n` entries and nothing else, and on return the
free budget is at least `size` or the store is empty.  Each single iteration
works as follows: in a well-formed non-empty store, `Delete` of the key at
`_lru_head` returns true and leaves a well-formed store with exactly the first
entry removed. -/
theorem C17_eviction_loop_terminates (s : SimpleLRU) (size : Nat) (hwf : WF s) :
    (s._max_size < size → s.RemoveOldNodes size = .ok (false, s)) ∧
    (size ≤ s._max_size →
      ∃ m s1, m ≤ (entries s).length ∧
        RemoveOldLoop size (entries s).length s = .ok (true, s1) ∧
        s.RemoveOldNodes size = .ok (true, s1) ∧
        entries s1 = (entries s).drop m ∧ WF s1 ∧
        (size ≤ s1._cur_size ∨ entries s1 = [])) ∧
    (∀ e es, entries s = e :: es →
      ∃ h n s1, s._lru_head = some h ∧ rd s.heap h = some n ∧ n.key = e.1 ∧
        s.Delete n.key = .ok (true, s1) ∧ entries s1 = es ∧
        (entries s1).length < (entries s).length ∧ WF s1) := by
  have hr : Rep s (cells s) := hwf
  have hlen : (entries s).length = (cells s).length := by simp [entries]
  refine ⟨fun h => removeOld_big h, ?_, ?_⟩
  · intro hle
    obtain ⟨m, s1, hl, hm, hr1, -, -, -, hstop, -, -⟩ :=
      loop_rep size hr (le_refl (cells s).length)
    have hfuel : (cells s).length ≤ s._lru_index.length + 1 :=
      Nat.le_succ_of_le (rep_length_le hr)
    have hall : s.RemoveOldNodes size = .ok (true, s1) := by
      simp only [RemoveOldNodes, Nat.not_lt.2 hle, if_false]
      exact loop_mono size hfuel hl
    refine ⟨m, s1, by rw [hlen]; exact hm, by rw [hlen]; exact hl, hall, ?_, wf_of_rep hr1, ?_⟩
    · rw [entries_of_rep hr1]
      simp [entries, List.map_drop]
    · by_cases hlt : m < (cells s).length
      · exact Or.inl (hstop hlt)
      · right
        rw [entries_of_rep hr1, List.drop_eq_nil_of_le (Nat.not_lt.1 hlt)]
        rfl
  · intro e es he
    obtain ⟨L1, a, L2, hL, h1, h2⟩ := @cells_split (cells s) [] es e.1 e.2 (by simpa using he)
    have hL1 : L1 = [] := List.map_eq_nil_iff.1 h1
    subst hL1
    rw [hL] at hr
    obtain ⟨s1, hd, hr1, -⟩ := delete_rep hr
    refine ⟨a, _, s1, hr.2.2.1, hr.2.1.1, rfl, hd, ?_, ?_, wf_of_rep hr1⟩
    · rw [entries_of_rep hr1]
      simpa using h2
    · rw [entries_of_rep hr1, he]
      simp [← h2]

/-- Scenario A: making room for 7 bytes in the store holding `a -> 1` and
`bb -> 22` with free budget 4. -/
theorem C17_eviction_loop_terminates_witness :
    WF scenarioA ∧ entries scenarioA = [(['a'], ['1']), (['b', 'b'], ['2', '2'])] ∧
      (∃ s1, RemoveOldLoop 7 2 scenarioA = .ok (true, s1) ∧ entries s1 = [] ∧
        s1._cur_size = 10) ∧
      (scenarioA._max_size < 7 → scenarioA.RemoveOldNodes 7 = .ok (false, scenarioA)) ∧
      (7 ≤ scenarioA._max_size →
        ∃ m s1, m ≤ (entries scenarioA).length ∧
          RemoveOldLoop 7 (entries scenarioA).length scenarioA = .ok (true, s1) ∧
          scenarioA.RemoveOldNodes 7 = .ok (true, s1) ∧
          entries s1 = (entries scenarioA).drop m ∧ WF s1 ∧
          (7 ≤ s1._cur_size ∨ entries s1 = [])) ∧
      (∀ e es, entries scenarioA = e :: es →
        ∃ h n s1, scenarioA._lru_head = some h ∧ rd scenarioA.heap h = some n ∧ n.key = e.1 ∧
          scenarioA.Delete n.key = .ok (true, s1) ∧ entries s1 = es ∧
          (entries s1).length < (entries scenarioA).length ∧ WF s1) :=
  ⟨by decide, rfl, ⟨_, rfl, rfl, rfl⟩, C17_eviction_loop_terminates scenarioA 7 (by decide)⟩

/-- Claim C18: successful insert postcondition.  In a well-formed store with exact
budget, for an absent key `k` and a value `v` whose cost fits `max_capacity`,
`Put(k, v)` and `PutIfAbsent(k, v)` both return true and leave the same store:
the first `n` entries are evicted, the others keep their values and their
order, `(k, v)` is appended at the MRU end (`_lru_tail` is the node the index
holds for `k`, and it carries `k` and `v`), and the free budget is the budget
after eviction minus `len(k) + len(v)`.  The store stays well formed with
exact budget. -/
theorem C18_insert_postcondition (s : SimpleLRU) (k v : Str)
    (hwf : WF s) (hb : Budget s) (habs : s.GetNode k = none)
    (hfit : k.length + v.length ≤ s._max_size) :
    ∃ n s1, s.Put k v = .ok (true, s1) ∧ s.PutIfAbsent k v = .ok (true, s1) ∧
      n ≤ (entries s).length ∧
      entries s1 = (entries s).drop n ++ [(k, v)] ∧
      (∃ a node, s1._lru_tail = some a ∧ s1.GetNode k = some a ∧
        rd s1.heap a = some node ∧ node.key = k ∧ node.value = v ∧ node.next = none) ∧
      s1._cur_size + (k.length + v.length) = s._cur_size + total ((entries s).take n) ∧
      s1._max_size = s._max_size ∧ WF s1 ∧ Budget s1 := by
  have hr : Rep s (cells s) := hwf
  obtain ⟨hmax, hbud⟩ := hb
  have hcost : uadd (size k) (size v) = k.length + v.length := cost_size (by omega)
  have htake : ∀ m, ((cells s).take m).map Prod.snd = (entries s).take m := by
    intro m; simp [entries, List.map_take]
  have hsplit : ∀ m, total ((entries s).take m) + total ((entries s).drop m)
      = total (entries s) := by
    intro m; rw [← total_append, List.take_append_drop]
  obtain ⟨n, a, s1, h1, hn, hr1, hcur, hm, -, hstop⟩ :=
    putAnyway_rep (v := v) hr habs (by rw [hcost]; exact hfit)
  have hfreed : freed s._cur_size (((cells s).take n).map Prod.snd)
      = s._cur_size + total ((entries s).take n) := by
    rw [htake]
    apply freed_eq
    have := hsplit n
    omega
  have hroom : k.length + v.length ≤ s._cur_size + total ((entries s).take n) := by
    by_cases hlt : n < (cells s).length
    · have := hstop hlt
      rwa [hcost, hfreed] at this
    · have hall : (entries s).take n = entries s := by
        apply List.take_of_length_le
        simp only [entries, List.length_map]
        omega
      rw [hall]
      omega
  have hent : entries s1 = (entries s).drop n ++ [(k, v)] := by
    rw [entries_of_rep hr1]
    simp [entries, List.map_drop]
  have hcur1 : s1._cur_size + (k.length + v.length)
      = s._cur_size + total ((entries s).take n) := by
    rw [hcur, hcost, hfreed, usub_of_le hroom (by have := hsplit n; omega)]
    omega
  refine ⟨n, s1, by rw [put_absent v habs, h1], by rw [putIfAbsent_absent v habs, h1],
    by simpa [entries] using hn, hent, ?_, hcur1, hm, wf_of_rep hr1, ⟨by rw [hm]; exact hmax, ?_⟩⟩
  · refine ⟨a, _, ?_, (rep_lookup hr1 k a).2 ⟨v, by simp⟩, rep_node hr1, rfl, rfl, rfl⟩
    rw [hr1.2.2.2.1]
    simp [lastOr_append]
  · rw [hent, total_append, hm]
    have := hsplit n
    have hone : total [(k, v)] = k.length + v.length := by simp [total, cost]
    omega

/-- Scenario A: inserting `ccc -> 3333` evicts both entries and leaves free
budget 3. -/
theorem C18_insert_postcondition_witness :
    WF scenarioA ∧ Budget scenarioA ∧ scenarioA.GetNode ['c', 'c', 'c'] = none ∧
      ['c', 'c', 'c'].length + ['3', '3', '3', '3'].length ≤ scenarioA._max_size ∧
      (∃ s1, scenarioA.Put ['c', 'c', 'c'] ['3', '3', '3', '3'] = .ok (true, s1) ∧
        entries s1 = [(['c', 'c', 'c'], ['3', '3', '3', '3'])] ∧ s1._cur_size = 3) ∧
      ∃ n s1, scenarioA.Put ['c', 'c', 'c'] ['3', '3', '3', '3'] = .ok (true, s1) ∧
        scenarioA.PutIfAbsent ['c', 'c', 'c'] ['3', '3', '3', '3'] = .ok (true, s1) ∧
        n ≤ (entries scenarioA).length ∧
        entries s1 = (entries scenarioA).drop n ++ [(['c', 'c', 'c'], ['3', '3', '3', '3'])] ∧
        (∃ a node, s1._lru_tail = some a ∧ s1.GetNode ['c', 'c', 'c'] = some a ∧
          rd s1.heap a = some node ∧ node.key = ['c', 'c', 'c'] ∧
          node.value = ['3', '3', '3', '3'] ∧ node.next = none) ∧
        s1._cur_size + (['c', 'c', 'c'].length + ['3', '3', '3', '3'].length)
          = scenarioA._cur_size + total ((entries scenarioA).take n) ∧
        s1._max_size = scenarioA._max_size ∧ WF s1 ∧ Budget s1 :=
  ⟨by decide, by decide, rfl, by decide, ⟨_, rfl, rfl, rfl⟩,
    C18_insert_postcondition scenarioA ['c', 'c', 'c'] ['3', '3', '3', '3']
      (by decide) (by decide) rfl (by decide)⟩

/-- Claim C19: the subtraction in `PutAnyway` can wrap around.  With capacity
`2^64 - 1`, `Put("a","1")`, `Set("a","12")` and `Delete("a")` leave an empty
store whose free budget is 1 (the budget raised by `Set` wraps when `Delete`
gives the entry's cost back).  For `Put("b","2")` the call
`RemoveOldNodes(2)` returns true because the list is empty, and
`_cur_size -= 2` is computed on `_cur_size = 1`: the result is `2^64 - 1`. -/
theorem C19_insert_budget_underflow :
    ∃ s1 s2 s3 s4, (SimpleLRU.init (2 ^ 64 - 1)).Put ['a'] ['1'] = .ok (true, s1) ∧
      s1.Set ['a'] ['1', '2'] = .ok (true, s2) ∧
      s2.Delete ['a'] = .ok (true, s3) ∧
      entries s3 = [] ∧ s3._cur_size = 1 ∧
      s3.RemoveOldNodes (uadd (size ['b']) (size ['2'])) = .ok (true, s3) ∧
      s3._cur_size < size ['b'] + size ['2'] ∧
      s3.Put ['b'] ['2'] = .ok (true, s4) ∧
      s4._cur_size = 2 ^ 64 - 1 :=
  ⟨_, _, _, _, rfl, rfl, rfl, rfl, rfl, rfl, by decide, rfl, rfl⟩

/-- Claim C20: head, tail and index are not kept in agreement by every call.  With
capacity 4, after `Put("a","1")` and `Put("b","2")`, `Set("a","12")` evicts the
head `a`: head and tail are then both node 1 and the index holds only `b`.
The call does not stop there: it goes on with the reference to the destroyed
node 0, which `GetNode` no longer finds. -/
theorem C20_set_continues_after_self_eviction :
    ∃ s1 s2 s3, (SimpleLRU.init 4).Put ['a'] ['1'] = .ok (true, s1) ∧
      s1.Put ['b'] ['2'] = .ok (true, s2) ∧
      s2.GetNode ['a'] = some 0 ∧ s2._lru_head = some 0 ∧
      s2.RemoveOldNodes (usub (size ['1', '2']) (size ['1'])) = .ok (true, s3) ∧
      s3._lru_head = some 1 ∧ s3._lru_tail = some 1 ∧ s3._lru_index = [(['b'], 1)] ∧
      s3.GetNode ['a'] = none ∧ load s3.heap 0 = .error Fault.danglingRef ∧
      s2.Set ['a'] ['1', '2'] = .error Fault.danglingRef :=
  ⟨_, _, _, rfl, rfl, rfl, rfl, rfl, rfl, rfl, rfl, rfl, rfl, rfl⟩

end Afina.Backend
